import Mathlib

/-! ekutil: `span`, `basic_string_view` and the numeric helpers.

A shallow embedding of `include/ekutil/span.h`, `include/ekutil/string_view.h` and
`include/ekutil/numeric.h`.

* Memory is a list of cells `mem : List α`; a pointer is the (integer) index of a
  cell, and dereferencing a pointer that is not the index of a cell yields `none`
  (this is where the C++ code has undefined behaviour).
* `std::ptrdiff_t` values are integers; `std::size_t` values are naturals taken
  modulo `2 ^ 64`, with the two conversions between them written out.
* `Traits` is the template parameter of `basic_string_view`: a record of the three
  operations the class calls.  `char_traits` is `std::char_traits`, the default.
* Three things the source calls but declares nowhere are modelled from the
  specification and marked so: `span::first`, `span::at`, and the conversion of a
  span to a `basic_string_view` in the return statement of `substr`.
-/

namespace ekutil

/-! ## Machine integers -/

/-- The largest value of `std::ptrdiff_t`. -/
def PTRDIFF_MAX : Int := 2 ^ 63 - 1

/-- Conversion `static_cast<std::ptrdiff_t>(c)` of a `std::size_t` value. -/
def to_ptrdiff (c : Nat) : Int :=
  if c % 2 ^ 64 < 2 ^ 63 then ((c % 2 ^ 64 : Nat) : Int) else ((c % 2 ^ 64 : Nat) : Int) - 2 ^ 64

/-- Conversion `static_cast<size_type>(i)` of a `std::ptrdiff_t` value. -/
def to_size (i : Int) : Nat := (i % 2 ^ 64).toNat

/-- Subtraction `a - b` of two `std::size_t` values (wraps around). -/
def size_sub (a b : Nat) : Nat := (a % 2 ^ 64 + (2 ^ 64 - b % 2 ^ 64)) % 2 ^ 64

/-! ## Memory -/

/-- Read `*p`: the cell at address `p`, or `none` when `p` addresses no cell. -/
def deref {α : Type} (mem : List α) (p : Int) : Option α :=
  if 0 ≤ p then mem[p.toNat]? else none

/-- The `n` cells `[p, p + n)` are all addressable. -/
def readable {α : Type} (mem : List α) (p : Int) (n : Nat) : Prop :=
  0 ≤ p ∧ p + (n : Int) ≤ (mem.length : Int)

instance {α : Type} (mem : List α) (p : Int) (n : Nat) : Decidable (readable mem p n) := by
  unfold readable; infer_instance

/-! ## `span<T>` -/

/-- Class `span<T>`: the private members `m_ptr` and `m_size`. -/
structure span where
  /-- Member `pointer m_ptr{nullptr}`. -/
  m_ptr : Int
  /-- Member `index_type m_size{0}`. -/
  m_size : Int
deriving DecidableEq, Repr

namespace span

/-- Constructor `span(pointer first, pointer last) : span(first, last - first)`. -/
def from_range (first last : Int) : span := ⟨first, last - first⟩

/-- Method `data()`. -/
def data (s : span) : Int := s.m_ptr

/-- Method `size()`. -/
def size (s : span) : Int := s.m_size

/-- Method `operator[](i)`: `*(m_ptr + i)`. -/
def index {α : Type} (mem : List α) (s : span) (i : Int) : Option α :=
  deref mem (s.m_ptr + i)

/-- Method `subspan(off)`: `span<T>(data() + off, size() - off)`. -/
def subspan_from (s : span) (off : Int) : span := ⟨s.data + off, s.size - off⟩

/-- Method `subspan(off, count)`: `span<T>(data() + off, count)`. -/
def subspan (s : span) (off count : Int) : span := ⟨s.data + off, count⟩

/-- Modelled from the spec: `span::first`, which `basic_string_view::remove_suffix`
calls, is declared nowhere in `span.h`.  It is taken to be the view of the first
`count` elements, the reading under which `remove_suffix` "shrinks the view by `n`
units from the end". -/
def first (s : span) (count : Int) : span := ⟨s.data, count⟩

/-- The size of the view is a non-negative `std::ptrdiff_t`. -/
def wf (s : span) : Prop := 0 ≤ s.m_size ∧ s.m_size ≤ PTRDIFF_MAX

/-- The view has a valid `(data, size)`: the range `[data, data + size)` lies in memory. -/
def valid {α : Type} (mem : List α) (s : span) : Prop :=
  s.wf ∧ 0 ≤ s.m_ptr ∧ s.m_ptr + s.m_size ≤ (mem.length : Int)

instance (s : span) : Decidable s.wf := by
  unfold wf; infer_instance

instance {α : Type} (mem : List α) (s : span) : Decidable (s.valid mem) := by
  unfold valid; infer_instance

end span

/-! ## `Traits` -/

/-- The template parameter `Traits` of `basic_string_view`: the operations
`Traits::length(s)`, `Traits::compare(s1, s2, n)` and `Traits::copy(dest, src, n)`.
An operation yields `none` where its behaviour is undefined; `copy` yields the
memory after the call. -/
structure Traits (α : Type) where
  /-- Operation `Traits::length(s)`. -/
  length : List α → Int → Option Nat
  /-- Operation `Traits::compare(s1, s2, n)`. -/
  compare : List α → Int → Int → Nat → Option Int
  /-- Operation `Traits::copy(dest, src, n)`. -/
  copy : List α → Int → Int → Nat → Option (List α)

/-! ## `basic_string_view<CharT, Traits>` -/

/-- Class `basic_string_view`: the private member `span_type m_data`. -/
structure basic_string_view where
  /-- Member `span_type m_data{}`. -/
  m_data : span
deriving DecidableEq, Repr

namespace basic_string_view

/-- Constant `npos = size_type(-1)`. -/
def npos : Nat := 2 ^ 64 - 1

/-- Method `data()`. -/
def data (v : basic_string_view) : Int := v.m_data.data

/-- Method `size()`: `static_cast<size_type>(m_data.size())`. -/
def size (v : basic_string_view) : Nat := to_size v.m_data.size

/-- Method `operator[](pos)`: `m_data[static_cast<index_type>(pos)]`. -/
def index {α : Type} (mem : List α) (v : basic_string_view) (pos : Nat) : Option α :=
  v.m_data.index mem (to_ptrdiff pos)

/-- Constructor `basic_string_view(const_pointer s, size_type c)`:
`m_data(s, static_cast<span_index_type>(c))`. -/
def from_ptr_count (s : Int) (c : Nat) : basic_string_view := ⟨⟨s, to_ptrdiff c⟩⟩

/-- Constructor `basic_string_view(const_pointer s)`:
`m_data(s, static_cast<span_index_type>(Traits::length(s)))`. -/
def from_cstr {α : Type} (T : Traits α) (mem : List α) (s : Int) : Option basic_string_view :=
  (T.length mem s).map fun l => ⟨⟨s, to_ptrdiff l⟩⟩

/-- Constructor `basic_string_view(const CharT (&s)[N])`: `m_data(s, N)`. -/
def from_array (s : Int) (N : Nat) : basic_string_view := ⟨⟨s, to_ptrdiff N⟩⟩

/-- Method `remove_prefix(n)`: `m_data = m_data.subspan(static_cast<std::ptrdiff_t>(n))`.
The result is the view after the call. -/
def remove_prefix (v : basic_string_view) (n : Nat) : basic_string_view :=
  ⟨v.m_data.subspan_from (to_ptrdiff n)⟩

/-- Method `remove_suffix(n)`: `m_data = m_data.first(size() - n)`.
The result is the view after the call. -/
def remove_suffix (v : basic_string_view) (n : Nat) : basic_string_view :=
  ⟨v.m_data.first (to_ptrdiff (size_sub v.size n))⟩

/-- Method `copy(dest, count, pos)`: `n = std::min(count, size() - pos)`,
`Traits::copy(dest, data() + pos, n)`, `return n`.  The result is the returned
count together with the memory after the call. -/
def copy {α : Type} (T : Traits α) (mem : List α) (v : basic_string_view)
    (dest : Int) (count : Nat) (pos : Nat) : Option (Nat × List α) :=
  let n := min count (size_sub v.size pos)
  (T.copy mem dest (v.data + (pos : Int)) n).map fun mem' => (n, mem')

/-- Modelled from the spec: the conversion of a `span<const CharT>` to a
`basic_string_view`, which the return statement of `substr` needs, is declared
nowhere in `string_view.h`: the class has no constructor taking a span and `span`
has no conversion operator, so `substr` is ill-formed as written.  The
specification has `substr` return "a new view starting at `pos` of length
`min(count, size() - pos)`" and defines the string view "in terms of a span of
`const CharT`"; the conversion is taken to be the view whose `m_data` is the span. -/
def from_span (s : span) : basic_string_view := ⟨s⟩

/-- The body of `substr(pos, count)` up to the operand of its `return`:
`n = std::min(count, size() - pos)` and the span `m_data.subspan(pos, n)`. -/
def substr_span (v : basic_string_view) (pos : Nat) (count : Nat) : span :=
  let n := min count (size_sub v.size pos)
  v.m_data.subspan (to_ptrdiff pos) (to_ptrdiff n)

/-- Modelled from the spec: the conversion in `return m_data.subspan(pos, n)` of
`substr(pos, count)`, for which the source declares nothing, is `from_span`; the
rest of the method is the source, in `substr_span`. -/
def substr (v : basic_string_view) (pos : Nat) (count : Nat) : basic_string_view :=
  from_span (v.substr_span pos count)

/-- Method `compare(basic_string_view v)`. -/
def compare {α : Type} (T : Traits α) (mem : List α) (a v : basic_string_view) : Option Int :=
  let n := min a.size v.size
  match T.compare mem a.data v.data n with
  | none => none
  | some cmp =>
    if cmp = 0 then
      if a.size = v.size then some 0
      else if a.size > v.size then some 1
      else some (-1)
    else some cmp

end basic_string_view

/-! ## Requirements on `Traits`

The C++ standard's character-traits requirements, for the three operations. -/

/-- Requirement on `Traits::compare(p, q, n)`: on two readable blocks it yields `0`
when the blocks agree in every unit, a negative value when at the first unit
where they differ the unit of `p` is the smaller one, and a positive value
otherwise. -/
def Traits.compare_lexicographic {α : Type} [LinearOrder α] (T : Traits α) : Prop :=
  ∀ (mem : List α) (p q : Int) (n : Nat), readable mem p n → readable mem q n →
    ∃ r, T.compare mem p q n = some r ∧
      (r = 0 ↔ ∀ i : Nat, i < n → deref mem (p + (i : Int)) = deref mem (q + (i : Int))) ∧
      (r < 0 ↔ ∃ j : Nat, j < n ∧
        (∀ i : Nat, i < j → deref mem (p + (i : Int)) = deref mem (q + (i : Int))) ∧
        ∃ x y, deref mem (p + (j : Int)) = some x ∧ deref mem (q + (j : Int)) = some y ∧ x < y)

/-- Requirement on `Traits::copy(dest, src, n)`: when both blocks are addressable and
do not overlap, afterwards unit `i` of `dest` is what unit `i` of `src` was, for
every `i < n`, and every other cell is unchanged. -/
def Traits.copy_assigns {α : Type} (T : Traits α) : Prop :=
  ∀ (mem : List α) (dest src : Int) (n : Nat), readable mem dest n → readable mem src n →
    (dest + (n : Int) ≤ src ∨ src + (n : Int) ≤ dest) →
    ∃ mem', T.copy mem dest src n = some mem' ∧ mem'.length = mem.length ∧
      (∀ i : Nat, i < n → deref mem' (dest + (i : Int)) = deref mem (src + (i : Int))) ∧
      (∀ a : Int, a < dest ∨ dest + (n : Int) ≤ a → deref mem' a = deref mem a)

/-- Requirement on `Traits::length(s)`: it yields the index of the first
terminator `CharT()` at or after `s`. -/
def Traits.length_scans {α : Type} [Zero α] (T : Traits α) : Prop :=
  ∀ (mem : List α) (s : Int) (L : Nat), readable mem s (L + 1) →
    deref mem (s + (L : Int)) = some 0 →
    (∀ i : Nat, i < L → deref mem (s + (i : Int)) ≠ some 0) →
    T.length mem s = some L

/-! ## `std::char_traits` -/

namespace char_traits

/-- Function `std::char_traits<CharT>::length(s)`: the number of units before the
first terminator at or after `s`; undefined when there is none. -/
def length {α : Type} [DecidableEq α] [Zero α] (mem : List α) (s : Int) : Option Nat :=
  if 0 ≤ s then
    if (0 : α) ∈ mem.drop s.toNat then some ((mem.drop s.toNat).indexOf 0) else none
  else none

/-- The comparison loop of `std::char_traits<CharT>::compare`. -/
def compare_loop {α : Type} [LinearOrder α] (mem : List α) (s1 s2 : Int) : Nat → Int
  | 0 => 0
  | n + 1 =>
    match deref mem s1, deref mem s2 with
    | some x, some y =>
      if x < y then -1 else if y < x then 1 else compare_loop mem (s1 + 1) (s2 + 1) n
    | _, _ => 0

/-- Function `std::char_traits<CharT>::compare(s1, s2, n)`; undefined unless both
blocks are addressable. -/
def compare {α : Type} [LinearOrder α] (mem : List α) (s1 s2 : Int) (n : Nat) : Option Int :=
  if readable mem s1 n ∧ readable mem s2 n then some (compare_loop mem s1 s2 n) else none

/-- Function `std::char_traits<CharT>::copy(dest, src, n)`; undefined unless both
blocks are addressable and do not overlap. -/
def copy {α : Type} (mem : List α) (dest src : Int) (n : Nat) : Option (List α) :=
  if readable mem dest n ∧ readable mem src n ∧
      (dest + (n : Int) ≤ src ∨ src + (n : Int) ≤ dest) then
    some (mem.take dest.toNat ++ (mem.drop src.toNat).take n ++ mem.drop (dest.toNat + n))
  else none

end char_traits

/-- The default template argument `std::char_traits<CharT>`. -/
def char_traits (α : Type) [LinearOrder α] [Zero α] : Traits α :=
  ⟨char_traits.length, char_traits.compare, char_traits.copy⟩

/-! ## The order on views -/

/-- View `a` sorts before view `b`: at the first position `j` where they differ,
either `a` has ended and `b` has not, or both have a unit and the unit of `a` is
the smaller one. -/
def sorts_before {α : Type} [LinearOrder α] (mem : List α) (a b : basic_string_view) : Prop :=
  ∃ j : Nat, j ≤ a.size ∧ j ≤ b.size ∧
    (∀ i : Nat, i < j → a.index mem i = b.index mem i) ∧
    ((j = a.size ∧ j < b.size) ∨
      (j < a.size ∧ j < b.size ∧
        ∃ x y, a.index mem j = some x ∧ b.index mem j = some y ∧ x < y))

/-! ## Further members of `span` and `basic_string_view` -/

/-- The smallest value of `std::ptrdiff_t`. -/
def PTRDIFF_MIN : Int := -(2 ^ 63)

/-- The size of the view is a value of `std::ptrdiff_t`. -/
def span.representable (s : span) : Prop := PTRDIFF_MIN ≤ s.m_size ∧ s.m_size ≤ PTRDIFF_MAX

instance (s : span) : Decidable s.representable := by
  unfold span.representable; infer_instance

/-- Modelled from the spec: `span::at`, which `basic_string_view::at` calls, is
declared nowhere in `span.h`.  The specification gives `at` "the same
unchecked-indexing implementation as `operator[]`", with "no actual bounds
checking". -/
def span.at {α : Type} (mem : List α) (s : span) (i : Int) : Option α := s.index mem i

/-- Method `at(pos)`: `m_data.at(static_cast<index_type>(pos))`. -/
def basic_string_view.at {α : Type} (mem : List α) (v : basic_string_view) (pos : Nat) :
    Option α :=
  v.m_data.at mem (to_ptrdiff pos)

/-- Overload `compare(pos1, count1, v)`: `substr(pos1, count1).compare(v)`, with
`substr` as above (its return conversion is modelled). -/
def basic_string_view.compare_substr {α : Type} (T : Traits α) (mem : List α)
    (a : basic_string_view) (pos1 count1 : Nat) (v : basic_string_view) : Option Int :=
  (a.substr pos1 count1).compare T mem v

/-- Overload `compare(pos1, count1, v, pos2, count2)`:
`substr(pos1, count1).compare(v.substr(pos2, count2))`. -/
def basic_string_view.compare_substr_substr {α : Type} (T : Traits α) (mem : List α)
    (a : basic_string_view) (pos1 count1 : Nat) (v : basic_string_view) (pos2 count2 : Nat) :
    Option Int :=
  (a.substr pos1 count1).compare T mem (v.substr pos2 count2)

/-- Overload `compare(s)`: `compare(basic_string_view(s))`. -/
def basic_string_view.compare_cstr {α : Type} (T : Traits α) (mem : List α)
    (a : basic_string_view) (s : Int) : Option Int :=
  match basic_string_view.from_cstr T mem s with
  | none => none
  | some w => a.compare T mem w

/-- Overload `compare(pos1, count1, s)`:
`substr(pos1, count1).compare(basic_string_view(s))`. -/
def basic_string_view.compare_substr_cstr {α : Type} (T : Traits α) (mem : List α)
    (a : basic_string_view) (pos1 count1 : Nat) (s : Int) : Option Int :=
  match basic_string_view.from_cstr T mem s with
  | none => none
  | some w => (a.substr pos1 count1).compare T mem w

/-- Overload `compare(pos1, count1, s, count2)`:
`substr(pos1, count1).compare(basic_string_view(s, count2))`. -/
def basic_string_view.compare_substr_ptr_count {α : Type} (T : Traits α) (mem : List α)
    (a : basic_string_view) (pos1 count1 : Nat) (s : Int) (count2 : Nat) : Option Int :=
  (a.substr pos1 count1).compare T mem (basic_string_view.from_ptr_count s count2)

/-- Function `make_span(T* ptr, std::ptrdiff_t count)`: `span<T>(ptr, count)`. -/
def make_span (ptr count : Int) : span := ⟨ptr, count⟩

/-- Function `make_span(T* first, T* last)`: `span<T>(first, last)`. -/
def make_span_range (first last : Int) : span := span.from_range first last

/-- Function `make_span(T& container)`:
`span(std::addressof(*std::begin(container)), std::addressof(*(std::end(container) - 1)) + 1)`.
The container is given by the addresses `std::begin` and `std::end` yield; the result
is undefined when one of the two dereferenced addresses is not that of a cell. -/
def make_span_container {α : Type} (mem : List α) (c_begin c_end : Int) : Option span :=
  match deref mem c_begin, deref mem (c_end - 1) with
  | some _, some _ => some (span.from_range c_begin (c_end - 1 + 1))
  | _, _ => none

/-! ## Construction from an array argument -/

/-- Construction `basic_string_view(a)` from an array `a` of `N` units at address
`s`: both one-argument constructors `basic_string_view(const_pointer)` and
`basic_string_view(const CharT (&)[N])` accept `a`.  For a const array (a string
literal is one) both are exact matches and overload resolution selects the
non-template pointer constructor; for a non-const array the pointer constructor
needs a qualification conversion and the array constructor is selected. -/
def construct_from_array {α : Type} (T : Traits α) (mem : List α) (s : Int) (N : Nat)
    (is_const : Bool) : Option basic_string_view :=
  if is_const then basic_string_view.from_cstr T mem s
  else some (basic_string_view.from_array s N)

/-! ## The specification's `substr` -/

/-- The specification's sub-view: "a new view starting at `pos` of length
`min(count, size() - pos)`". -/
def spec_sub_view (v : basic_string_view) (pos count : Nat) : basic_string_view :=
  ⟨⟨v.data + (pos : Int), ((min count (v.size - pos) : Nat) : Int)⟩⟩


/-- The specification's reading of `substr(pos, count)`: an out-of-range error
(here `none`) when `pos > size()`, and otherwise the view starting at `pos` of
length `min(count, size() - pos)`. -/
def spec_substr (v : basic_string_view) (pos count : Nat) : Option basic_string_view :=
  if pos > v.size then none
  else some ⟨⟨v.data + (pos : Int), ((min count (v.size - pos) : Nat) : Int)⟩⟩

/-! ## A scenario -/

/-- Memory holding the null-terminated strings "abcde" at address 0, "cde" at 6,
"bc" at 10 and "bcd" at 13. -/
def scenario_memory : List Nat :=
  [97, 98, 99, 100, 101, 0, 99, 100, 101, 0, 98, 99, 0, 98, 99, 100, 0]

/-! ## Containment of ranges -/

/-- The range of `r` lies within the range of `s`: `r` starts no earlier, is no
longer, and ends no later, and its size is not negative. -/
def span.contains (s r : span) : Prop :=
  s.data ≤ r.data ∧ 0 ≤ r.size ∧ r.size ≤ s.size ∧ r.data + r.size ≤ s.data + s.size

instance (s r : span) : Decidable (s.contains r) := by
  unfold span.contains; infer_instance

/-! ## Iteration -/

/-- Method `span::begin()` (and `cbegin()`): `m_ptr`. -/
def span.begin (s : span) : Int := s.m_ptr

/-- Method `span::end()` (and `cend()`): `m_ptr + m_size`. -/
def span.end_ (s : span) : Int := s.m_ptr + s.m_size

/-- The adaptor `std::reverse_iterator<iterator>`: it holds the iterator `current`,
dereferences to `*(current - 1)` and is incremented by decrementing `current`. -/
structure reverse_iterator where
  /-- The underlying iterator. -/
  current : Int
deriving DecidableEq, Repr

/-- Method `span::rbegin()` (and `crbegin()`): `reverse_iterator{end()}`. -/
def span.rbegin (s : span) : reverse_iterator := ⟨s.end_⟩

/-- Method `span::rend()` (and `crend()`): `reverse_iterator{begin()}`. -/
def span.rend (s : span) : reverse_iterator := ⟨s.begin⟩

/-- Method `basic_string_view::begin()` (and `cbegin()`): `m_data.cbegin()`. -/
def basic_string_view.begin (v : basic_string_view) : Int := v.m_data.begin

/-- Method `basic_string_view::end()` (and `cend()`): `m_data.cend()`. -/
def basic_string_view.end_ (v : basic_string_view) : Int := v.m_data.end_

/-- The loop `for (it = first; it != last; ++it) visit(*it)` over pointers: the
units visited, in order; `none` when `last` is not reached within `fuel` steps. -/
def visit_forward {α : Type} (mem : List α) (last : Int) : Nat → Int → Option (List (Option α))
  | 0, it => if it = last then some [] else none
  | fuel + 1, it =>
    if it = last then some []
    else (visit_forward mem last fuel (it + 1)).map fun rest => deref mem it :: rest

/-- The loop `for (it = first; it != last; ++it) visit(*it)` over reverse
iterators: the units visited, in order; `none` when `last` is not reached within
`fuel` steps. -/
def visit_reverse {α : Type} (mem : List α) (last : reverse_iterator) :
    Nat → reverse_iterator → Option (List (Option α))
  | 0, it => if it = last then some [] else none
  | fuel + 1, it =>
    if it = last then some []
    else (visit_reverse mem last fuel ⟨it.current - 1⟩).map fun rest =>
      deref mem (it.current - 1) :: rest

/-- The units `s[0], ..., s[size - 1]` of a span, in order. -/
def span.elements {α : Type} (mem : List α) (s : span) : List (Option α) :=
  (List.range s.size.toNat).map fun (i : Nat) => s.index mem (i : Int)

/-! ## Requirement of sign antisymmetry -/

/-- The results of `Traits::compare(p, q, n)` and `Traits::compare(q, p, n)` have
opposite signs. -/
def Traits.compare_antisymmetric {α : Type} (T : Traits α) : Prop :=
  ∀ (mem : List α) (p q : Int) (n : Nat) (r r' : Int),
    T.compare mem p q n = some r → T.compare mem q p n = some r' →
    (r < 0 ↔ 0 < r') ∧ (r = 0 ↔ r' = 0)

/-! ## `numeric.h` -/

/-- An integral type `Integral`: its `sizeof` in bytes and whether it is signed. -/
structure Integral where
  /-- The value of `sizeof(Integral)`. -/
  sizeof : Nat
  /-- Whether the type is signed. -/
  is_signed : Bool
deriving DecidableEq, Repr

namespace Integral

/-- Constant `std::numeric_limits<Integral>::digits`: the number of value bits. -/
def digits (t : Integral) : Nat := 8 * t.sizeof - (if t.is_signed then 1 else 0)

/-- Constant `std::numeric_limits<Integral>::max()`. -/
def max (t : Integral) : Nat := 2 ^ t.digits - 1

/-- Constant `std::numeric_limits<Integral>::digits10`: the number of decimal digits
every value of which is representable, `digits * log10(2)` rounded down (with the
rational `643 / 2136` for `log10(2)`, as in libstdc++). -/
def digits10 (t : Integral) : Nat := t.digits * 643 / 2136

/-- Constant `std::numeric_limits<Integral>::radix`. -/
def radix : Int := 2

/-- Conversion `static_cast<Integral>(v)`. -/
def cast (t : Integral) (v : Int) : Int :=
  if t.is_signed then
    (v + 2 ^ (8 * t.sizeof - 1)) % 2 ^ (8 * t.sizeof) - 2 ^ (8 * t.sizeof - 1)
  else v % 2 ^ (8 * t.sizeof)

end Integral

/-- The table `static int base8_digits[4] = {3, 5, 11, 21}`. -/
def base8_digits : List Int := [3, 5, 11, 21]

/-- The loop `while (i) { i /= static_cast<Integral>(base); digits++; }` of
`max_digits`, with divisor `b`; `none` on a division by zero or when `i` has not
reached zero within `fuel` iterations. -/
def max_digits_loop (b : Int) : Nat → Int → Int → Option Int
  | 0, i, digits => if i = 0 then some digits else none
  | fuel + 1, i, digits =>
    if i = 0 then some digits
    else if b = 0 then none
    else max_digits_loop b fuel (Int.tdiv i b) (digits + 1)

/-- Function `max_digits<Integral>(base)`; `none` where the table is read out of
its bounds or the loop does not yield a result. -/
def max_digits (t : Integral) (base : Int) (fuel : Nat) : Option Int :=
  if base = 10 then some (t.digits10 : Int)
  else if base = 8 then base8_digits[t.sizeof - 1]?
  else if base = Integral.radix then some (t.digits : Int)
  else max_digits_loop (t.cast base) fuel (t.max : Int) 0

/-- The steps `x |= (x >> 1); x |= (x >> 2); x |= (x >> 4); x |= (x >> 8);
x |= (x >> 16);` common to both overloads of `next_pow2`. -/
def smear16 (x : Nat) : Nat :=
  let x := x ||| (x >>> 1)
  let x := x ||| (x >>> 2)
  let x := x ||| (x >>> 4)
  let x := x ||| (x >>> 8)
  x ||| (x >>> 16)

/-- Function `next_pow2(uint64_t x)`, with arithmetic modulo `2 ^ 64`. -/
def next_pow2_u64 (x : Nat) : Nat :=
  let x := (x + (2 ^ 64 - 1)) % 2 ^ 64
  let x := smear16 x
  let x := x ||| (x >>> 32)
  (x + 1) % 2 ^ 64

/-- Function `next_pow2(uint32_t x)`, with arithmetic modulo `2 ^ 32`. -/
def next_pow2_u32 (x : Nat) : Nat :=
  let x := (x + (2 ^ 32 - 1)) % 2 ^ 32
  let x := smear16 x
  (x + 1) % 2 ^ 32

/-! ## Element access -/

theorem to_ptrdiff_of_lt (c : Nat) (h : (c : Int) ≤ PTRDIFF_MAX) : to_ptrdiff c = (c : Int) := by
  unfold PTRDIFF_MAX at h
  unfold to_ptrdiff
  split <;> omega

theorem to_size_of_wf (i : Int) (h0 : 0 ≤ i) (h1 : i ≤ PTRDIFF_MAX) : ((to_size i : Nat) : Int) = i := by
  unfold PTRDIFF_MAX at h1
  unfold to_size
  omega

theorem deref_of_readable {α : Type} (mem : List α) (p : Int) (h0 : 0 ≤ p)
    (h1 : p < (mem.length : Int)) :
    ∃ x, deref mem p = some x ∧ mem[p.toNat]? = some x := by
  have hlt : p.toNat < mem.length := by omega
  refine ⟨mem[p.toNat], ?_, ?_⟩
  · unfold deref
    rw [if_pos h0]
    exact List.getElem?_eq_getElem hlt
  · exact List.getElem?_eq_getElem hlt

theorem deref_of_block {α : Type} (mem : List α) (p : Int) (n i : Nat)
    (h : readable mem p n) (hi : i < n) : ∃ x, deref mem (p + (i : Int)) = some x := by
  obtain ⟨h0, h1⟩ := h
  obtain ⟨x, hx, _⟩ := deref_of_readable mem (p + (i : Int)) (by omega) (by omega)
  exact ⟨x, hx⟩

theorem readable_tail {α : Type} (mem : List α) (p : Int) (n : Nat)
    (h : readable mem p (n + 1)) : readable mem (p + 1) n := by
  unfold readable at *
  omega

/-! ## `std::char_traits` meets the requirements -/

theorem compare_loop_spec {α : Type} [LinearOrder α] (mem : List α) :
    ∀ (n : Nat) (p q : Int), readable mem p n → readable mem q n →
      (char_traits.compare_loop mem p q n = 0 ↔
        ∀ i : Nat, i < n → deref mem (p + (i : Int)) = deref mem (q + (i : Int))) ∧
      (char_traits.compare_loop mem p q n < 0 ↔ ∃ j : Nat, j < n ∧
        (∀ i : Nat, i < j → deref mem (p + (i : Int)) = deref mem (q + (i : Int))) ∧
        ∃ x y, deref mem (p + (j : Int)) = some x ∧ deref mem (q + (j : Int)) = some y ∧ x < y)
  | 0, p, q, _, _ => by simp [char_traits.compare_loop]
  | n + 1, p, q, hp, hq => by
    obtain ⟨x, hx⟩ := deref_of_block mem p (n + 1) 0 hp (by omega)
    obtain ⟨y, hy⟩ := deref_of_block mem q (n + 1) 0 hq (by omega)
    simp only [Nat.cast_zero, add_zero] at hx hy
    have ih := compare_loop_spec mem n (p + 1) (q + 1) (readable_tail mem p n hp)
      (readable_tail mem q n hq)
    have hshift : ∀ (a : Int) (i : Nat), a + 1 + (i : Int) = a + ((i + 1 : Nat) : Int) := by
      intro a i; push_cast; ring
    have h0 : ∀ a : Int, a + ((0 : Nat) : Int) = a := by intro a; simp
    simp only [char_traits.compare_loop, hx, hy]
    by_cases hxy : x < y
    · rw [if_pos hxy]
      refine ⟨⟨fun h => by omega, fun h => ?_⟩, ⟨fun _ => ?_, fun _ => by omega⟩⟩
      · have h' := h 0 (by omega)
        rw [h0, h0, hx, hy] at h'
        exact absurd (Option.some.inj h') (ne_of_lt hxy)
      · exact ⟨0, by omega, fun i hi => by omega, x, y, by rw [h0]; exact hx,
          by rw [h0]; exact hy, hxy⟩
    · rw [if_neg hxy]
      by_cases hyx : y < x
      · rw [if_pos hyx]
        refine ⟨⟨fun h => by omega, fun h => ?_⟩, ⟨fun h => by omega, fun h => ?_⟩⟩
        · have h' := h 0 (by omega)
          rw [h0, h0, hx, hy] at h'
          exact absurd (Option.some.inj h') (ne_of_gt hyx)
        · obtain ⟨j, _, hpre, x', y', hx', hy', hlt⟩ := h
          rcases Nat.eq_zero_or_pos j with hj | hj
          · subst hj
            rw [h0, hx] at hx'
            rw [h0, hy] at hy'
            rw [← Option.some.inj hx', ← Option.some.inj hy'] at hlt
            exact absurd hlt hxy
          · have h' := hpre 0 hj
            rw [h0, h0, hx, hy] at h'
            exact absurd (Option.some.inj h') (ne_of_gt hyx)
      · rw [if_neg hyx]
        have hEq : x = y := le_antisymm (not_lt.mp hyx) (not_lt.mp hxy)
        obtain ⟨ihz, ihn⟩ := ih
        constructor
        · rw [ihz]
          constructor
          · intro h i hi
            rcases Nat.eq_zero_or_pos i with hi0 | hi0
            · subst hi0
              rw [h0, h0, hx, hy, hEq]
            · have h' := h (i - 1) (by omega)
              rw [hshift, hshift] at h'
              have hi1 : i - 1 + 1 = i := by omega
              rw [hi1] at h'
              exact h'
          · intro h i hi
            rw [hshift, hshift]
            exact h (i + 1) (by omega)
        · rw [ihn]
          constructor
          · rintro ⟨j, hj, hpre, x', y', hx', hy', hlt⟩
            refine ⟨j + 1, by omega, fun i hi => ?_, x', y', ?_, ?_, hlt⟩
            · rcases Nat.eq_zero_or_pos i with hi0 | hi0
              · subst hi0
                rw [h0, h0, hx, hy, hEq]
              · have h' := hpre (i - 1) (by omega)
                rw [hshift, hshift] at h'
                have hi1 : i - 1 + 1 = i := by omega
                rw [hi1] at h'
                exact h'
            · rw [← hshift]; exact hx'
            · rw [← hshift]; exact hy'
          · rintro ⟨j, hj, hpre, x', y', hx', hy', hlt⟩
            rcases Nat.eq_zero_or_pos j with hj0 | hj0
            · subst hj0
              rw [h0, hx] at hx'
              rw [h0, hy] at hy'
              rw [← Option.some.inj hx', ← Option.some.inj hy'] at hlt
              exact absurd hlt hxy
            · refine ⟨j - 1, by omega, fun i hi => ?_, x', y', ?_, ?_, hlt⟩
              · rw [hshift, hshift]
                exact hpre (i + 1) (by omega)
              · rw [hshift]
                have hj1 : j - 1 + 1 = j := by omega
                rw [hj1]; exact hx'
              · rw [hshift]
                have hj1 : j - 1 + 1 = j := by omega
                rw [hj1]; exact hy'

theorem splice_length {α : Type} (mem : List α) (d s n : Nat) (hd : d + n ≤ mem.length)
    (hs : s + n ≤ mem.length) :
    (mem.take d ++ (mem.drop s).take n ++ mem.drop (d + n)).length = mem.length := by
  simp only [List.length_append, List.length_take, List.length_drop]
  omega

theorem splice_getElem? {α : Type} (mem : List α) (d s n k : Nat) (hd : d + n ≤ mem.length)
    (hs : s + n ≤ mem.length) :
    (mem.take d ++ (mem.drop s).take n ++ mem.drop (d + n))[k]? =
      if d ≤ k ∧ k < d + n then mem[s + (k - d)]? else mem[k]? := by
  have hl1 : (mem.take d).length = d := by rw [List.length_take]; omega
  have hl2 : ((mem.drop s).take n).length = n := by
    rw [List.length_take, List.length_drop]; omega
  rw [List.append_assoc]
  by_cases h1 : k < d
  · rw [List.getElem?_append_left (by omega), List.getElem?_take_of_lt h1, if_neg (by omega)]
  · rw [List.getElem?_append_right (by omega), hl1]
    by_cases h2 : k < d + n
    · rw [List.getElem?_append_left (by omega), List.getElem?_take_of_lt (by omega),
        List.getElem?_drop, if_pos (by omega)]
    · rw [List.getElem?_append_right (by omega), hl2, List.getElem?_drop, if_neg (by omega)]
      congr 1
      omega

theorem char_traits_copy_assigns {α : Type} [LinearOrder α] [Zero α] :
    (char_traits α).copy_assigns := by
  intro mem dest src n hd hs hdis
  obtain ⟨hd0, hd1⟩ := id hd
  obtain ⟨hs0, hs1⟩ := id hs
  have hdn : dest.toNat + n ≤ mem.length := by omega
  have hsn : src.toNat + n ≤ mem.length := by omega
  refine ⟨_, ?_, splice_length mem dest.toNat src.toNat n hdn hsn, ?_, ?_⟩
  · show char_traits.copy mem dest src n = _
    unfold char_traits.copy
    rw [if_pos ⟨hd, hs, hdis⟩]
  · intro i hi
    unfold deref
    rw [if_pos (by omega), if_pos (by omega),
      splice_getElem? mem dest.toNat src.toNat n _ hdn hsn, if_pos (by omega)]
    congr 1
    omega
  · intro a ha
    unfold deref
    by_cases h0 : 0 ≤ a
    · rw [if_pos h0, if_pos h0, splice_getElem? mem dest.toNat src.toNat n _ hdn hsn,
        if_neg (by omega)]
    · rw [if_neg h0, if_neg h0]

theorem char_traits_compare_lexicographic {α : Type} [LinearOrder α] [Zero α] :
    (char_traits α).compare_lexicographic := by
  intro mem p q n hp hq
  refine ⟨char_traits.compare_loop mem p q n, ?_, compare_loop_spec mem n p q hp hq⟩
  show char_traits.compare mem p q n = _
  unfold char_traits.compare
  rw [if_pos ⟨hp, hq⟩]

/-- C1: for a view (a `span` or a `basic_string_view`) with a valid `(data, size)`
and an index `i` with `0 <= i < size()`, `view[i]` is defined and is the cell of the
underlying memory at offset `i` from `data()`. -/
theorem index_reads_buffer {α : Type} (mem : List α) (s : span) (v : basic_string_view)
    (hs : s.valid mem) (hv : v.m_data.valid mem) :
    (∀ i : Int, 0 ≤ i → i < s.size →
      ∃ x, s.index mem i = some x ∧ mem[(s.data + i).toNat]? = some x) ∧
    (∀ pos : Nat, pos < v.size →
      ∃ x, v.index mem pos = some x ∧ mem[v.data.toNat + pos]? = some x) := by
  constructor
  · intro i hi0 hi1
    obtain ⟨_, hp, hlen⟩ := hs
    unfold span.size at hi1
    exact deref_of_readable mem (s.m_ptr + i) (by omega) (by omega)
  · intro pos hpos
    obtain ⟨⟨hw0, hw1⟩, hp, hlen⟩ := hv
    have hsz := to_size_of_wf v.m_data.m_size hw0 hw1
    unfold basic_string_view.size span.size at hpos
    have hcast : to_ptrdiff pos = (pos : Int) := to_ptrdiff_of_lt pos (by omega)
    have hidx : (v.m_data.m_ptr + (pos : Int)).toNat = v.data.toNat + pos := by
      unfold basic_string_view.data span.data
      omega
    unfold basic_string_view.index span.index
    rw [hcast, ← hidx]
    exact deref_of_readable mem (v.m_data.m_ptr + (pos : Int)) (by omega) (by omega)

theorem index_reads_buffer_witness :
    (span.valid [10, 20, 30, 40] ⟨1, 3⟩ ∧ span.valid [10, 20, 30, 40] (⟨⟨1, 3⟩⟩ : basic_string_view).m_data) ∧
    ((∀ i : Int, 0 ≤ i → i < span.size ⟨1, 3⟩ →
      ∃ x, span.index [10, 20, 30, 40] ⟨1, 3⟩ i = some x ∧
        [10, 20, 30, 40][(span.data ⟨1, 3⟩ + i).toNat]? = some x) ∧
    (∀ pos : Nat, pos < basic_string_view.size ⟨⟨1, 3⟩⟩ →
      ∃ x, basic_string_view.index [10, 20, 30, 40] ⟨⟨1, 3⟩⟩ pos = some x ∧
        [10, 20, 30, 40][(basic_string_view.data ⟨⟨1, 3⟩⟩).toNat + pos]? = some x)) :=
  ⟨by decide, index_reads_buffer [10, 20, 30, 40] ⟨1, 3⟩ ⟨⟨1, 3⟩⟩ (by decide) (by decide)⟩

/-! ## Sub-views -/

/-- C2: for a span `s` and `0 <= off <= s.size()`, `0 <= count <= s.size() - off`,
`s.subspan(off, count).size() == count` and `s.subspan(off, count)[i] == s[off + i]`
for every `0 <= i < count`; when `s` has a valid `(data, size)` these elements are
defined. -/
theorem subspan_size_and_elements {α : Type} (mem : List α) (s : span) (off count : Int)
    (hoff0 : 0 ≤ off) (hoff1 : off ≤ s.size) (hc0 : 0 ≤ count) (hc1 : count ≤ s.size - off) :
    (s.subspan off count).size = count ∧
    (∀ i : Int, 0 ≤ i → i < count → (s.subspan off count).index mem i = s.index mem (off + i)) ∧
    (s.valid mem → ∀ i : Int, 0 ≤ i → i < count →
      ∃ x, (s.subspan off count).index mem i = some x) := by
  have hidx : ∀ i : Int, (s.subspan off count).index mem i = s.index mem (off + i) := by
    intro i
    unfold span.subspan span.index span.data
    rw [add_assoc]
  refine ⟨rfl, fun i _ _ => hidx i, ?_⟩
  rintro ⟨_, hp, hlen⟩ i hi0 hi1
  unfold span.size at hoff1 hc1
  rw [hidx i]
  obtain ⟨x, hx, _⟩ := deref_of_readable mem (s.m_ptr + (off + i)) (by omega) (by omega)
  exact ⟨x, hx⟩

theorem subspan_size_and_elements_witness :
    (span.subspan ⟨1, 4⟩ 1 2).size = 2 ∧
    (∀ i : Int, 0 ≤ i → i < 2 →
      (span.subspan ⟨1, 4⟩ 1 2).index [10, 20, 30, 40, 50] i
        = span.index [10, 20, 30, 40, 50] ⟨1, 4⟩ (1 + i)) ∧
    (span.valid [10, 20, 30, 40, 50] ⟨1, 4⟩ → ∀ i : Int, 0 ≤ i → i < 2 →
      ∃ x, (span.subspan ⟨1, 4⟩ 1 2).index [10, 20, 30, 40, 50] i = some x) :=
  subspan_size_and_elements [10, 20, 30, 40, 50] ⟨1, 4⟩ 1 2 (by decide) (by decide) (by decide)
    (by decide)

theorem size_of_wf (v : basic_string_view) (hv : v.m_data.wf) :
    ((v.size : Nat) : Int) = v.m_data.m_size :=
  to_size_of_wf v.m_data.m_size hv.1 hv.2

theorem size_sub_of_le (a b : Nat) (hb : b ≤ a) (ha : (a : Int) ≤ PTRDIFF_MAX) :
    size_sub a b = a - b := by
  unfold PTRDIFF_MAX at ha
  unfold size_sub
  omega

theorem substr_span_eq (v : basic_string_view) (pos count : Nat)
    (hv : v.m_data.wf) (hpos : pos ≤ v.size) :
    v.substr_span pos count
      = ⟨v.data + (pos : Int), ((min count (v.size - pos) : Nat) : Int)⟩ := by
  have hsz := size_of_wf v hv
  have hmax := hv.2
  have hsub := size_sub_of_le v.size pos hpos (by omega)
  have hcp : to_ptrdiff pos = (pos : Int) := to_ptrdiff_of_lt pos (by omega)
  have hck := to_ptrdiff_of_lt (min count (v.size - pos)) (by omega)
  show (⟨v.m_data.m_ptr + to_ptrdiff pos,
    to_ptrdiff (min count (size_sub v.size pos))⟩ : span) = _
  rw [hsub, hcp, hck]
  rfl

/-- C3: for a string view `v` (with a size that is a non-negative `ptrdiff_t`), every
`pos <= v.size()` and every `count`, the span that `substr(pos, count)` computes
starts at `v.data() + pos` and has `min(count, v.size() - pos)` elements, and the
view made of it has `data() == v.data() + pos` and
`size() == min(count, v.size() - pos)`; so when `count > v.size() - pos`, and for
`count == npos`, the size is `v.size() - pos`. -/
theorem substr_data_and_size (v : basic_string_view) (pos count : Nat)
    (hv : v.m_data.wf) (hpos : pos ≤ v.size) :
    (v.substr_span pos count).data = v.data + (pos : Int) ∧
    (v.substr_span pos count).size = ((min count (v.size - pos) : Nat) : Int) ∧
    (v.substr pos count).data = v.data + (pos : Int) ∧
    (v.substr pos count).size = min count (v.size - pos) ∧
    (v.size - pos < count → (v.substr pos count).size = v.size - pos) ∧
    (v.substr pos basic_string_view.npos).size = v.size - pos := by
  have hsz := size_of_wf v hv
  have hmax : (v.size : Int) ≤ PTRDIFF_MAX := by rw [hsz]; exact hv.2
  have hspan : ∀ c : Nat, v.substr_span pos c
      = ⟨v.data + (pos : Int), ((min c (v.size - pos) : Nat) : Int)⟩ :=
    fun c => substr_span_eq v pos c hv hpos
  have hsize : ∀ c : Nat, (v.substr pos c).size = min c (v.size - pos) := by
    intro c
    have hn : ((min c (v.size - pos) : Nat) : Int) ≤ PTRDIFF_MAX := by omega
    have h0 : (0 : Int) ≤ ((min c (v.size - pos) : Nat) : Int) := by omega
    have h1 := to_size_of_wf _ h0 hn
    show to_size (v.substr_span pos c).m_size = _
    rw [hspan c]
    simp only
    omega
  refine ⟨?_, ?_, ?_, hsize count, fun h => ?_, ?_⟩
  · rw [hspan count]
    rfl
  · rw [hspan count]
    rfl
  · show (v.substr_span pos count).m_ptr = _
    rw [hspan count]
  · rw [hsize count]
    omega
  · rw [hsize]
    unfold PTRDIFF_MAX at hmax
    unfold basic_string_view.npos
    omega

theorem substr_data_and_size_witness :
    span.wf (⟨⟨2, 5⟩⟩ : basic_string_view).m_data ∧ 3 ≤ basic_string_view.size ⟨⟨2, 5⟩⟩ ∧
    ((basic_string_view.substr_span ⟨⟨2, 5⟩⟩ 3 100).data
        = basic_string_view.data ⟨⟨2, 5⟩⟩ + ((3 : Nat) : Int) ∧
    (basic_string_view.substr_span ⟨⟨2, 5⟩⟩ 3 100).size
        = ((min 100 (basic_string_view.size ⟨⟨2, 5⟩⟩ - 3) : Nat) : Int) ∧
    (basic_string_view.substr ⟨⟨2, 5⟩⟩ 3 100).data
        = basic_string_view.data ⟨⟨2, 5⟩⟩ + ((3 : Nat) : Int) ∧
    (basic_string_view.substr ⟨⟨2, 5⟩⟩ 3 100).size
        = min 100 (basic_string_view.size ⟨⟨2, 5⟩⟩ - 3) ∧
    (basic_string_view.size ⟨⟨2, 5⟩⟩ - 3 < 100 →
      (basic_string_view.substr ⟨⟨2, 5⟩⟩ 3 100).size = basic_string_view.size ⟨⟨2, 5⟩⟩ - 3) ∧
    (basic_string_view.substr ⟨⟨2, 5⟩⟩ 3 basic_string_view.npos).size
        = basic_string_view.size ⟨⟨2, 5⟩⟩ - 3) :=
  ⟨by decide, by decide, substr_data_and_size ⟨⟨2, 5⟩⟩ 3 100 (by decide) (by decide)⟩

theorem substr_scenario :
    basic_string_view.substr_span ⟨⟨2, 5⟩⟩ 3 100 = ⟨5, 2⟩ ∧
    basic_string_view.substr ⟨⟨2, 5⟩⟩ 3 100 = ⟨⟨5, 2⟩⟩ ∧
    basic_string_view.substr ⟨⟨2, 5⟩⟩ 0 1 = ⟨⟨2, 1⟩⟩ ∧
    basic_string_view.substr ⟨⟨2, 5⟩⟩ 5 basic_string_view.npos = ⟨⟨7, 0⟩⟩ :=
  ⟨by decide, by decide, by decide, by decide⟩

/-! ## Three-way comparison -/

/-- C4: when `Traits::compare` over the first `min(a.size(), b.size())` units yields
`c`, `a.compare(b)` returns a value `r` that is `c` itself when `c` is non-zero
(so has its sign), and otherwise is `0` if `a.size() == b.size()`, negative if
`a.size() < b.size()` and positive if `a.size() > b.size()`. -/
theorem compare_three_way {α : Type} (T : Traits α) (mem : List α) (a b : basic_string_view)
    (c : Int) (hc : T.compare mem a.data b.data (min a.size b.size) = some c) :
    ∃ r, a.compare T mem b = some r ∧
      (c ≠ 0 → r = c ∧ Int.sign r = Int.sign c) ∧
      (c = 0 → (a.size = b.size → r = 0) ∧ (a.size < b.size → r < 0) ∧
        (a.size > b.size → 0 < r)) := by
  unfold basic_string_view.compare
  simp only [hc]
  by_cases h0 : c = 0
  · rw [if_pos h0]
    by_cases h1 : a.size = b.size
    · rw [if_pos h1]
      exact ⟨0, rfl, fun h => absurd h0 h, fun _ => ⟨fun _ => rfl, fun h => by omega,
        fun h => by omega⟩⟩
    · rw [if_neg h1]
      by_cases h2 : a.size > b.size
      · rw [if_pos h2]
        exact ⟨1, rfl, fun h => absurd h0 h, fun _ => ⟨fun h => absurd h h1,
          fun h => by omega, fun _ => by omega⟩⟩
      · rw [if_neg h2]
        exact ⟨-1, rfl, fun h => absurd h0 h, fun _ => ⟨fun h => absurd h h1,
          fun _ => by omega, fun h => absurd h h2⟩⟩
  · rw [if_neg h0]
    exact ⟨c, rfl, fun _ => ⟨rfl, rfl⟩, fun h => absurd h h0⟩

theorem compare_three_way_witness :
    (char_traits Nat).compare [104, 105, 0, 104, 105, 33, 0]
        (basic_string_view.data ⟨⟨0, 2⟩⟩) (basic_string_view.data ⟨⟨3, 3⟩⟩)
        (min (basic_string_view.size ⟨⟨0, 2⟩⟩) (basic_string_view.size ⟨⟨3, 3⟩⟩)) = some 0 ∧
    ∃ r, basic_string_view.compare (char_traits Nat) [104, 105, 0, 104, 105, 33, 0]
        ⟨⟨0, 2⟩⟩ ⟨⟨3, 3⟩⟩ = some r ∧
      ((0 : Int) ≠ 0 → r = 0 ∧ Int.sign r = Int.sign 0) ∧
      ((0 : Int) = 0 →
        (basic_string_view.size ⟨⟨0, 2⟩⟩ = basic_string_view.size ⟨⟨3, 3⟩⟩ → r = 0) ∧
        (basic_string_view.size ⟨⟨0, 2⟩⟩ < basic_string_view.size ⟨⟨3, 3⟩⟩ → r < 0) ∧
        (basic_string_view.size ⟨⟨0, 2⟩⟩ > basic_string_view.size ⟨⟨3, 3⟩⟩ → 0 < r)) :=
  ⟨by decide, compare_three_way (char_traits Nat) [104, 105, 0, 104, 105, 33, 0]
    ⟨⟨0, 2⟩⟩ ⟨⟨3, 3⟩⟩ 0 (by decide)⟩

theorem sorts_before_trans {α : Type} [LinearOrder α] (mem : List α)
    (a b c : basic_string_view) (hab : sorts_before mem a b) (hbc : sorts_before mem b c) :
    sorts_before mem a c := by
  obtain ⟨j1, hj1a, hj1b, hpre1, h1⟩ := hab
  obtain ⟨j2, hj2b, hj2c, hpre2, h2⟩ := hbc
  rcases h1 with ⟨h1e, h1l⟩ | ⟨h1a, h1b, x, y, hx, hy, hxy⟩
  · rcases h2 with ⟨h2e, h2l⟩ | ⟨h2b, h2c, y', z, hy', hz, hyz⟩
    · exact ⟨j1, hj1a, by omega,
        fun i hi => (hpre1 i hi).trans (hpre2 i (by omega)), Or.inl ⟨h1e, by omega⟩⟩
    · by_cases hle : j1 ≤ j2
      · exact ⟨j1, hj1a, by omega,
          fun i hi => (hpre1 i hi).trans (hpre2 i (by omega)), Or.inl ⟨h1e, by omega⟩⟩
      · have hlt : j2 < j1 := by omega
        exact ⟨j2, by omega, hj2c,
          fun i hi => (hpre1 i (by omega)).trans (hpre2 i hi),
          Or.inr ⟨by omega, h2c, y', z, (hpre1 j2 hlt).trans hy', hz, hyz⟩⟩
  · rcases h2 with ⟨h2e, h2l⟩ | ⟨h2b, h2c, y', z, hy', hz, hyz⟩
    · have hlt : j1 < j2 := by omega
      exact ⟨j1, hj1a, by omega,
        fun i hi => (hpre1 i hi).trans (hpre2 i (by omega)),
        Or.inr ⟨h1a, by omega, x, y, hx, (hpre2 j1 hlt).symm.trans hy, hxy⟩⟩
    · rcases lt_trichotomy j1 j2 with hlt | heq | hgt
      · exact ⟨j1, hj1a, by omega,
          fun i hi => (hpre1 i hi).trans (hpre2 i (by omega)),
          Or.inr ⟨h1a, by omega, x, y, hx, (hpre2 j1 hlt).symm.trans hy, hxy⟩⟩
      · subst heq
        have hyy : y = y' := Option.some.inj (hy.symm.trans hy')
        subst hyy
        exact ⟨j1, hj1a, hj2c,
          fun i hi => (hpre1 i hi).trans (hpre2 i hi),
          Or.inr ⟨h1a, h2c, x, z, hx, hz, lt_trans hxy hyz⟩⟩
      · exact ⟨j2, by omega, hj2c,
          fun i hi => (hpre1 i (by omega)).trans (hpre2 i hi),
          Or.inr ⟨by omega, h2c, y', z, (hpre1 j2 hgt).trans hy', hz, hyz⟩⟩

theorem index_eq_deref {α : Type} (mem : List α) (v : basic_string_view) (i : Nat)
    (hv : v.m_data.wf) (hi : i < v.size) :
    v.index mem i = deref mem (v.data + (i : Int)) := by
  have hsz := size_of_wf v hv
  have hmax := hv.2
  unfold basic_string_view.index span.index
  rw [to_ptrdiff_of_lt i (by omega)]
  rfl

theorem readable_of_valid {α : Type} (mem : List α) (v : basic_string_view)
    (hv : v.m_data.valid mem) (n : Nat) (hn : n ≤ v.size) : readable mem v.data n := by
  have hsz := size_of_wf v hv.1
  obtain ⟨_, hp, hlen⟩ := hv
  unfold readable basic_string_view.data span.data
  omega

theorem compare_spec {α : Type} [LinearOrder α] (T : Traits α) (hT : T.compare_lexicographic)
    (mem : List α) (a b : basic_string_view)
    (ha : a.m_data.valid mem) (hb : b.m_data.valid mem) :
    ∃ r, a.compare T mem b = some r ∧
      (r = 0 ↔ a.size = b.size ∧ ∀ i : Nat, i < a.size → a.index mem i = b.index mem i) ∧
      (r < 0 ↔ sorts_before mem a b) := by
  obtain ⟨c, hc, hz, hn⟩ := hT mem a.data b.data (min a.size b.size)
    (readable_of_valid mem a ha _ (by omega)) (readable_of_valid mem b hb _ (by omega))
  have hA : ∀ i : Nat, i < a.size → deref mem (a.data + (i : Int)) = a.index mem i :=
    fun i hi => (index_eq_deref mem a i ha.1 hi).symm
  have hB : ∀ i : Nat, i < b.size → deref mem (b.data + (i : Int)) = b.index mem i :=
    fun i hi => (index_eq_deref mem b i hb.1 hi).symm
  have hz' : c = 0 ↔ ∀ i : Nat, i < min a.size b.size → a.index mem i = b.index mem i := by
    rw [hz]
    constructor
    · intro h i hi
      rw [← hA i (by omega), ← hB i (by omega)]
      exact h i hi
    · intro h i hi
      rw [hA i (by omega), hB i (by omega)]
      exact h i hi
  have hn' : c < 0 ↔ ∃ j : Nat, j < min a.size b.size ∧
      (∀ i : Nat, i < j → a.index mem i = b.index mem i) ∧
      ∃ x y, a.index mem j = some x ∧ b.index mem j = some y ∧ x < y := by
    rw [hn]
    constructor
    · rintro ⟨j, hj, hpre, x, y, hx, hy, hxy⟩
      refine ⟨j, hj, fun i hi => ?_, x, y, ?_, ?_, hxy⟩
      · rw [← hA i (by omega), ← hB i (by omega)]
        exact hpre i hi
      · rw [← hA j (by omega)]; exact hx
      · rw [← hB j (by omega)]; exact hy
    · rintro ⟨j, hj, hpre, x, y, hx, hy, hxy⟩
      refine ⟨j, hj, fun i hi => ?_, x, y, ?_, ?_, hxy⟩
      · rw [hA i (by omega), hB i (by omega)]
        exact hpre i hi
      · rw [hA j (by omega)]; exact hx
      · rw [hB j (by omega)]; exact hy
  unfold basic_string_view.compare
  simp only [hc]
  by_cases h0 : c = 0
  · rw [if_pos h0]
    have hP := hz'.mp h0
    have hns : b.size ≤ a.size → ¬ sorts_before mem a b := by
      rintro hle ⟨j, hja, hjb, hpre, ⟨he, hl⟩ | ⟨hja', hjb', x, y, hx, hy, hxy⟩⟩
      · omega
      · have h' := hP j (by omega)
        rw [hx, hy] at h'
        exact absurd (Option.some.inj h') (ne_of_lt hxy)
    by_cases h1 : a.size = b.size
    · rw [if_pos h1]
      exact ⟨0, rfl, iff_of_true rfl ⟨h1, fun i hi => hP i (by omega)⟩,
        iff_of_false (lt_irrefl 0) (hns (by omega))⟩
    · rw [if_neg h1]
      by_cases h2 : a.size > b.size
      · rw [if_pos h2]
        exact ⟨1, rfl, iff_of_false (by omega) (fun h => h1 h.1),
          iff_of_false (by omega) (hns (by omega))⟩
      · rw [if_neg h2]
        refine ⟨-1, rfl, iff_of_false (by omega) (fun h => h1 h.1),
          iff_of_true (by omega) ?_⟩
        exact ⟨a.size, le_refl _, by omega, fun i hi => hP i (by omega),
          Or.inl ⟨rfl, by omega⟩⟩
  · rw [if_neg h0]
    refine ⟨c, rfl, iff_of_false h0 ?_, ?_⟩
    · rintro ⟨h1, hall⟩
      exact h0 (hz'.mpr (fun i hi => hall i (by omega)))
    · rw [hn']
      constructor
      · rintro ⟨j, hj, hpre, x, y, hx, hy, hxy⟩
        exact ⟨j, by omega, by omega, hpre, Or.inr ⟨by omega, by omega, x, y, hx, hy, hxy⟩⟩
      · rintro ⟨j, hja, hjb, hpre, ⟨he, hl⟩ | ⟨hja', hjb', x, y, hx, hy, hxy⟩⟩
        · exact absurd (hz'.mpr (fun i hi => hpre i (by omega))) h0
        · exact ⟨j, by omega, hpre, x, y, hx, hy, hxy⟩

/-- C5: `compare` is transitive: for views `a`, `b`, `c` with valid `(data, size)` and a
`Traits::compare` that compares lexicographically, if `a.compare(b) < 0` and
`b.compare(c) < 0` then `a.compare(c)` returns a negative value. -/
theorem compare_transitive {α : Type} [LinearOrder α] (T : Traits α)
    (hT : T.compare_lexicographic) (mem : List α) (a b c : basic_string_view)
    (ha : a.m_data.valid mem) (hb : b.m_data.valid mem) (hc : c.m_data.valid mem)
    (r1 r2 : Int) (h1 : a.compare T mem b = some r1) (hr1 : r1 < 0)
    (h2 : b.compare T mem c = some r2) (hr2 : r2 < 0) :
    ∃ r3, a.compare T mem c = some r3 ∧ r3 < 0 := by
  obtain ⟨s1, hs1, _, hn1⟩ := compare_spec T hT mem a b ha hb
  obtain ⟨s2, hs2, _, hn2⟩ := compare_spec T hT mem b c hb hc
  obtain ⟨s3, hs3, _, hn3⟩ := compare_spec T hT mem a c ha hc
  have e1 : s1 = r1 := Option.some.inj (hs1.symm.trans h1)
  have e2 : s2 = r2 := Option.some.inj (hs2.symm.trans h2)
  subst e1 e2
  exact ⟨s3, hs3, hn3.mpr (sorts_before_trans mem a b c (hn1.mp hr1) (hn2.mp hr2))⟩

theorem compare_transitive_witness :
    (span.valid [97, 98, 0, 97, 98, 99, 0, 97, 98, 100, 0] (⟨⟨0, 2⟩⟩ : basic_string_view).m_data ∧
      span.valid [97, 98, 0, 97, 98, 99, 0, 97, 98, 100, 0] (⟨⟨3, 3⟩⟩ : basic_string_view).m_data ∧
      span.valid [97, 98, 0, 97, 98, 99, 0, 97, 98, 100, 0] (⟨⟨7, 3⟩⟩ : basic_string_view).m_data ∧
      basic_string_view.compare (char_traits Nat) [97, 98, 0, 97, 98, 99, 0, 97, 98, 100, 0]
        ⟨⟨0, 2⟩⟩ ⟨⟨3, 3⟩⟩ = some (-1) ∧
      basic_string_view.compare (char_traits Nat) [97, 98, 0, 97, 98, 99, 0, 97, 98, 100, 0]
        ⟨⟨3, 3⟩⟩ ⟨⟨7, 3⟩⟩ = some (-1)) ∧
    ∃ r3, basic_string_view.compare (char_traits Nat)
        [97, 98, 0, 97, 98, 99, 0, 97, 98, 100, 0] ⟨⟨0, 2⟩⟩ ⟨⟨7, 3⟩⟩ = some r3 ∧ r3 < 0 :=
  ⟨by decide, compare_transitive (char_traits Nat) char_traits_compare_lexicographic
    [97, 98, 0, 97, 98, 99, 0, 97, 98, 100, 0] ⟨⟨0, 2⟩⟩ ⟨⟨3, 3⟩⟩ ⟨⟨7, 3⟩⟩
    (by decide) (by decide) (by decide) (-1) (-1) (by decide) (by decide) (by decide)
    (by decide)⟩

/-- C6: for views `a`, `b` with valid `(data, size)` and a `Traits::compare` that
compares lexicographically, `a.compare(b)` returns `0` exactly when
`a.size() == b.size()` and `a[i] == b[i]` for every `i < a.size()`; and
`a.compare(a)` returns `0`. -/
theorem compare_eq_zero_iff {α : Type} [LinearOrder α] (T : Traits α)
    (hT : T.compare_lexicographic) (mem : List α) (a b : basic_string_view)
    (ha : a.m_data.valid mem) (hb : b.m_data.valid mem) :
    (∃ r, a.compare T mem b = some r ∧
      (r = 0 ↔ a.size = b.size ∧ ∀ i : Nat, i < a.size → a.index mem i = b.index mem i)) ∧
    a.compare T mem a = some 0 := by
  obtain ⟨r, hr, hz, _⟩ := compare_spec T hT mem a b ha hb
  obtain ⟨r', hr', hz', _⟩ := compare_spec T hT mem a a ha ha
  refine ⟨⟨r, hr, hz⟩, ?_⟩
  have h0 : r' = 0 := hz'.mpr ⟨rfl, fun _ _ => rfl⟩
  rw [hr', h0]

theorem compare_eq_zero_iff_witness :
    (span.valid [98, 99, 100, 0, 98, 99, 100, 0] (⟨⟨0, 3⟩⟩ : basic_string_view).m_data ∧
      span.valid [98, 99, 100, 0, 98, 99, 100, 0] (⟨⟨4, 3⟩⟩ : basic_string_view).m_data) ∧
    ((∃ r, basic_string_view.compare (char_traits Nat) [98, 99, 100, 0, 98, 99, 100, 0]
        ⟨⟨0, 3⟩⟩ ⟨⟨4, 3⟩⟩ = some r ∧
      (r = 0 ↔ basic_string_view.size ⟨⟨0, 3⟩⟩ = basic_string_view.size ⟨⟨4, 3⟩⟩ ∧
        ∀ i : Nat, i < basic_string_view.size ⟨⟨0, 3⟩⟩ →
          basic_string_view.index [98, 99, 100, 0, 98, 99, 100, 0] ⟨⟨0, 3⟩⟩ i
            = basic_string_view.index [98, 99, 100, 0, 98, 99, 100, 0] ⟨⟨4, 3⟩⟩ i)) ∧
    basic_string_view.compare (char_traits Nat) [98, 99, 100, 0, 98, 99, 100, 0]
      ⟨⟨0, 3⟩⟩ ⟨⟨0, 3⟩⟩ = some 0) :=
  ⟨by decide, compare_eq_zero_iff (char_traits Nat) char_traits_compare_lexicographic
    [98, 99, 100, 0, 98, 99, 100, 0] ⟨⟨0, 3⟩⟩ ⟨⟨4, 3⟩⟩ (by decide) (by decide)⟩

/-- C7: prefix rule: for views `a`, `b` with valid `(data, size)` and a
`Traits::compare` that compares lexicographically, if `a.size() < b.size()` and
`a[i] == b[i]` for every `i < a.size()`, then `a.compare(b)` returns a negative
value and `b.compare(a)` a positive one. -/
theorem compare_proper_initial_segment {α : Type} [LinearOrder α] (T : Traits α)
    (hT : T.compare_lexicographic) (mem : List α) (a b : basic_string_view)
    (ha : a.m_data.valid mem) (hb : b.m_data.valid mem)
    (hlt : a.size < b.size)
    (hpre : ∀ i : Nat, i < a.size → a.index mem i = b.index mem i) :
    (∃ r, a.compare T mem b = some r ∧ r < 0) ∧
    (∃ r, b.compare T mem a = some r ∧ 0 < r) := by
  obtain ⟨r, hr, _, hn⟩ := compare_spec T hT mem a b ha hb
  obtain ⟨r', hr', hz', hn'⟩ := compare_spec T hT mem b a hb ha
  refine ⟨⟨r, hr, hn.mpr ⟨a.size, le_refl _, by omega, hpre, Or.inl ⟨rfl, hlt⟩⟩⟩,
    ⟨r', hr', ?_⟩⟩
  have hnz : ¬ r' = 0 := fun h => by
    have := (hz'.mp h).1
    omega
  have hnn : ¬ r' < 0 := by
    rw [hn']
    rintro ⟨j, hjb, hja, hp, ⟨he, hl⟩ | ⟨hjb', hja', x, y, hx, hy, hxy⟩⟩
    · omega
    · have h' := hpre j hja'
      rw [hx, hy] at h'
      exact absurd (Option.some.inj h').symm (ne_of_lt hxy)
  omega

theorem compare_proper_initial_segment_witness :
    (span.valid [104, 101, 108, 108, 111, 0, 104, 101, 108, 108, 111, 32, 119, 111, 114, 108, 100, 0]
        (⟨⟨0, 5⟩⟩ : basic_string_view).m_data ∧
      span.valid [104, 101, 108, 108, 111, 0, 104, 101, 108, 108, 111, 32, 119, 111, 114, 108, 100, 0]
        (⟨⟨6, 11⟩⟩ : basic_string_view).m_data ∧
      basic_string_view.size ⟨⟨0, 5⟩⟩ < basic_string_view.size ⟨⟨6, 11⟩⟩) ∧
    ((∃ r, basic_string_view.compare (char_traits Nat)
        [104, 101, 108, 108, 111, 0, 104, 101, 108, 108, 111, 32, 119, 111, 114, 108, 100, 0]
        ⟨⟨0, 5⟩⟩ ⟨⟨6, 11⟩⟩ = some r ∧ r < 0) ∧
    (∃ r, basic_string_view.compare (char_traits Nat)
        [104, 101, 108, 108, 111, 0, 104, 101, 108, 108, 111, 32, 119, 111, 114, 108, 100, 0]
        ⟨⟨6, 11⟩⟩ ⟨⟨0, 5⟩⟩ = some r ∧ 0 < r)) :=
  ⟨by decide, compare_proper_initial_segment (char_traits Nat) char_traits_compare_lexicographic
    [104, 101, 108, 108, 111, 0, 104, 101, 108, 108, 111, 32, 119, 111, 114, 108, 100, 0]
    ⟨⟨0, 5⟩⟩ ⟨⟨6, 11⟩⟩ (by decide) (by decide) (by decide) (by decide)⟩

/-! ## Narrowing in place -/

/-- C8: for a string view `v` (with a size that is a non-negative `ptrdiff_t`) and
`n <= v.size()`, after `v.remove_prefix(n)` the view has `size()` equal to the old
size minus `n` and `data()` equal to the old data plus `n`, and its element `i` is
the old element `i + n`, for every `i` below the new size. -/
theorem remove_prefix_size_data_elements {α : Type} (mem : List α) (v : basic_string_view)
    (n : Nat) (hv : v.m_data.wf) (hn : n ≤ v.size) :
    basic_string_view.size ( basic_string_view.remove_prefix v n) = v.size - n ∧
    basic_string_view.data ( basic_string_view.remove_prefix v n) = v.data + (n : Int) ∧
    ∀ i : Nat, i < v.size - n →
      basic_string_view.index mem ( basic_string_view.remove_prefix v n) i
        = v.index mem (i + n) := by
  have hsz := size_of_wf v hv
  have hmax := hv.2
  have h0 := hv.1
  have hcast : to_ptrdiff n = (n : Int) := to_ptrdiff_of_lt n (by omega)
  refine ⟨?_, ?_, fun i hi => ?_⟩
  · show to_size (v.m_data.m_size - to_ptrdiff n) = _
    rw [hcast]
    have h1 := to_size_of_wf (v.m_data.m_size - (n : Int)) (by omega) (by omega)
    omega
  · show v.m_data.m_ptr + to_ptrdiff n = _
    rw [hcast]
    rfl
  · show deref mem (v.m_data.m_ptr + to_ptrdiff n + to_ptrdiff i)
      = deref mem (v.m_data.m_ptr + to_ptrdiff (i + n))
    rw [hcast, to_ptrdiff_of_lt i (by omega), to_ptrdiff_of_lt (i + n) (by omega)]
    congr 1
    omega

theorem remove_prefix_size_data_elements_witness :
    (span.wf (⟨⟨0, 5⟩⟩ : basic_string_view).m_data ∧ 1 ≤ basic_string_view.size ⟨⟨0, 5⟩⟩) ∧
    (basic_string_view.size ( basic_string_view.remove_prefix ⟨⟨0, 5⟩⟩ 1)
        = basic_string_view.size ⟨⟨0, 5⟩⟩ - 1 ∧
    basic_string_view.data ( basic_string_view.remove_prefix ⟨⟨0, 5⟩⟩ 1)
        = basic_string_view.data ⟨⟨0, 5⟩⟩ + ((1 : Nat) : Int) ∧
    ∀ i : Nat, i < basic_string_view.size ⟨⟨0, 5⟩⟩ - 1 →
      basic_string_view.index [97, 98, 99, 100, 101] ( basic_string_view.remove_prefix ⟨⟨0, 5⟩⟩ 1) i
        = basic_string_view.index [97, 98, 99, 100, 101] ⟨⟨0, 5⟩⟩ (i + 1)) :=
  ⟨by decide, remove_prefix_size_data_elements [97, 98, 99, 100, 101] ⟨⟨0, 5⟩⟩ 1 (by decide)
    (by decide)⟩

/-- C9: for a string view `v` (with a size that is a non-negative `ptrdiff_t`) and
`n <= v.size()`, after `v.remove_suffix(n)` the view has `size()` equal to the old
size minus `n` and `data()` unchanged, and its element `i` is the old element `i`,
for every `i` below the new size. -/
theorem remove_suffix_size_data_elements {α : Type} (mem : List α) (v : basic_string_view)
    (n : Nat) (hv : v.m_data.wf) (hn : n ≤ v.size) :
    (v.remove_suffix n).size = v.size - n ∧
    (v.remove_suffix n).data = v.data ∧
    ∀ i : Nat, i < v.size - n → (v.remove_suffix n).index mem i = v.index mem i := by
  have hsz := size_of_wf v hv
  have hmax := hv.2
  have hsub := size_sub_of_le v.size n hn (by omega)
  refine ⟨?_, rfl, fun _ _ => rfl⟩
  show to_size (to_ptrdiff (size_sub v.size n)) = _
  rw [hsub, to_ptrdiff_of_lt _ (by omega)]
  have h1 := to_size_of_wf ((v.size - n : Nat) : Int) (by omega) (by omega)
  omega

theorem remove_suffix_size_data_elements_witness :
    (span.wf (⟨⟨0, 5⟩⟩ : basic_string_view).m_data ∧ 2 ≤ basic_string_view.size ⟨⟨0, 5⟩⟩) ∧
    ((basic_string_view.remove_suffix ⟨⟨0, 5⟩⟩ 2).size = basic_string_view.size ⟨⟨0, 5⟩⟩ - 2 ∧
    (basic_string_view.remove_suffix ⟨⟨0, 5⟩⟩ 2).data = basic_string_view.data ⟨⟨0, 5⟩⟩ ∧
    ∀ i : Nat, i < basic_string_view.size ⟨⟨0, 5⟩⟩ - 2 →
      (basic_string_view.remove_suffix ⟨⟨0, 5⟩⟩ 2).index [97, 98, 99, 100, 101] i
        = basic_string_view.index [97, 98, 99, 100, 101] ⟨⟨0, 5⟩⟩ i) :=
  ⟨by decide, remove_suffix_size_data_elements [97, 98, 99, 100, 101] ⟨⟨0, 5⟩⟩ 2 (by decide)
    (by decide)⟩

/-! ## Copying out -/

/-- C10: for a string view `v` of size `N` with a valid `(data, size)`, `pos <= N`, any
`count`, and a destination block of `n = min(count, N - pos)` addressable units that
does not overlap the units copied (the precondition of `Traits::copy`),
`v.copy(dest, count, pos)` returns `n`, and afterwards `dest[i]` is `v[pos + i]`
for every `i < n`, both as `v` was before the call and as it is after. -/
theorem copy_returns_count_and_units {α : Type} (T : Traits α) (hT : T.copy_assigns)
    (mem : List α) (v : basic_string_view) (dest : Int) (count pos : Nat)
    (hv : v.m_data.valid mem) (hpos : pos ≤ v.size)
    (hdest : readable mem dest (min count (v.size - pos)))
    (hdis : dest + ((min count (v.size - pos) : Nat) : Int) ≤ v.data + (pos : Int) ∨
      v.data + (pos : Int) + ((min count (v.size - pos) : Nat) : Int) ≤ dest) :
    ∃ mem', v.copy T mem dest count pos = some (min count (v.size - pos), mem') ∧
      ∀ i : Nat, i < min count (v.size - pos) →
        deref mem' (dest + (i : Int)) = v.index mem (pos + i) ∧
        deref mem' (dest + (i : Int)) = v.index mem' (pos + i) := by
  have hsz := size_of_wf v hv.1
  have hmax := hv.1.2
  have hsub := size_sub_of_le v.size pos hpos (by omega)
  have hsrc : readable mem (v.data + (pos : Int)) (min count (v.size - pos)) := by
    obtain ⟨_, hp, hlen⟩ := hv
    unfold readable basic_string_view.data span.data
    omega
  obtain ⟨mem', hcopy, _, hw, hframe⟩ :=
    hT mem dest (v.data + (pos : Int)) (min count (v.size - pos)) hdest hsrc hdis
  refine ⟨mem', ?_, fun i hi => ?_⟩
  · unfold basic_string_view.copy
    simp only [hsub, hcopy, Option.map_some']
  · have hidx : ∀ m : List α, v.index m (pos + i) = deref m (v.data + (pos : Int) + (i : Int)) := by
      intro m
      rw [index_eq_deref m v (pos + i) hv.1 (by omega)]
      congr 1
      push_cast
      ring
    have h1 : deref mem' (dest + (i : Int)) = v.index mem (pos + i) := by
      rw [hidx mem]
      exact hw i hi
    refine ⟨h1, ?_⟩
    rw [h1, hidx mem, hidx mem']
    exact (hframe _ (by omega)).symm

theorem copy_returns_count_and_units_witness :
    (span.valid [97, 98, 99, 100, 101, 0, 0, 0, 0, 0, 0, 0, 0, 0, 0]
        (⟨⟨0, 5⟩⟩ : basic_string_view).m_data ∧
      2 ≤ basic_string_view.size ⟨⟨0, 5⟩⟩ ∧
      readable [97, 98, 99, 100, 101, 0, 0, 0, 0, 0, 0, 0, 0, 0, 0] 5
        (min 100 (basic_string_view.size ⟨⟨0, 5⟩⟩ - 2))) ∧
    ∃ mem', basic_string_view.copy (char_traits Nat)
        [97, 98, 99, 100, 101, 0, 0, 0, 0, 0, 0, 0, 0, 0, 0] ⟨⟨0, 5⟩⟩ 5 100 2
        = some (min 100 (basic_string_view.size ⟨⟨0, 5⟩⟩ - 2), mem') ∧
      ∀ i : Nat, i < min 100 (basic_string_view.size ⟨⟨0, 5⟩⟩ - 2) →
        deref mem' (5 + (i : Int))
          = basic_string_view.index [97, 98, 99, 100, 101, 0, 0, 0, 0, 0, 0, 0, 0, 0, 0]
              ⟨⟨0, 5⟩⟩ (2 + i) ∧
        deref mem' (5 + (i : Int)) = basic_string_view.index mem' ⟨⟨0, 5⟩⟩ (2 + i) :=
  ⟨by decide, copy_returns_count_and_units (char_traits Nat) char_traits_copy_assigns
    [97, 98, 99, 100, 101, 0, 0, 0, 0, 0, 0, 0, 0, 0, 0] ⟨⟨0, 5⟩⟩ 5 100 2
    (by decide) (by decide) (by decide) (by decide)⟩

theorem copy_scenario :
    basic_string_view.copy (char_traits Nat)
        [97, 98, 99, 100, 101, 0, 0, 0, 0, 0, 0, 0, 0, 0, 0] ⟨⟨0, 5⟩⟩ 5 100 2
      = some (3, [97, 98, 99, 100, 101, 99, 100, 101, 0, 0, 0, 0, 0, 0, 0]) := by
  decide

/-- C11: for a string view `v` with a valid `(data, size)`, `pos <= v.size()`, any
`count`, and a destination block of `n = min(count, v.size() - pos)` addressable
units that does not overlap the units copied, `v.copy(dest, count, pos)` returns
`n` and leaves every cell `dest[j]` with `j >= n`, and every cell before `dest`,
unchanged (exactly `n` units are written, no terminator); memory keeps its extent,
so `v`, whose `(data, size)` the call cannot alter, is still a valid view. -/
theorem copy_frame {α : Type} (T : Traits α) (hT : T.copy_assigns)
    (mem : List α) (v : basic_string_view) (dest : Int) (count pos : Nat)
    (hv : v.m_data.valid mem) (hpos : pos ≤ v.size)
    (hdest : readable mem dest (min count (v.size - pos)))
    (hdis : dest + ((min count (v.size - pos) : Nat) : Int) ≤ v.data + (pos : Int) ∨
      v.data + (pos : Int) + ((min count (v.size - pos) : Nat) : Int) ≤ dest) :
    ∃ mem', v.copy T mem dest count pos = some (min count (v.size - pos), mem') ∧
      (∀ j : Nat, min count (v.size - pos) ≤ j →
        deref mem' (dest + (j : Int)) = deref mem (dest + (j : Int))) ∧
      (∀ a : Int, a < dest → deref mem' a = deref mem a) ∧
      mem'.length = mem.length ∧ v.m_data.valid mem' := by
  have hsz := size_of_wf v hv.1
  have hmax := hv.1.2
  have hsub := size_sub_of_le v.size pos hpos (by omega)
  have hsrc : readable mem (v.data + (pos : Int)) (min count (v.size - pos)) := by
    obtain ⟨_, hp, hlen⟩ := hv
    unfold readable basic_string_view.data span.data
    omega
  obtain ⟨mem', hcopy, hlen, _, hframe⟩ :=
    hT mem dest (v.data + (pos : Int)) (min count (v.size - pos)) hdest hsrc hdis
  refine ⟨mem', ?_, fun j hj => hframe _ (Or.inr (by omega)),
    fun a ha => hframe a (Or.inl ha), hlen, ?_⟩
  · unfold basic_string_view.copy
    simp only [hsub, hcopy, Option.map_some']
  · obtain ⟨hw, hp, hl⟩ := hv
    exact ⟨hw, hp, by rw [hlen]; exact hl⟩

theorem copy_frame_witness :
    (span.valid [97, 98, 99, 100, 101, 7, 7, 7, 7, 7, 7, 7, 7, 7, 7]
        (⟨⟨0, 5⟩⟩ : basic_string_view).m_data ∧
      2 ≤ basic_string_view.size ⟨⟨0, 5⟩⟩ ∧
      readable [97, 98, 99, 100, 101, 7, 7, 7, 7, 7, 7, 7, 7, 7, 7] 5
        (min 100 (basic_string_view.size ⟨⟨0, 5⟩⟩ - 2))) ∧
    ∃ mem', basic_string_view.copy (char_traits Nat)
        [97, 98, 99, 100, 101, 7, 7, 7, 7, 7, 7, 7, 7, 7, 7] ⟨⟨0, 5⟩⟩ 5 100 2
        = some (min 100 (basic_string_view.size ⟨⟨0, 5⟩⟩ - 2), mem') ∧
      (∀ j : Nat, min 100 (basic_string_view.size ⟨⟨0, 5⟩⟩ - 2) ≤ j →
        deref mem' (5 + (j : Int))
          = deref [97, 98, 99, 100, 101, 7, 7, 7, 7, 7, 7, 7, 7, 7, 7] (5 + (j : Int))) ∧
      (∀ a : Int, a < 5 →
        deref mem' a = deref [97, 98, 99, 100, 101, 7, 7, 7, 7, 7, 7, 7, 7, 7, 7] a) ∧
      mem'.length = [97, 98, 99, 100, 101, 7, 7, 7, 7, 7, 7, 7, 7, 7, 7].length ∧
      span.valid mem' (⟨⟨0, 5⟩⟩ : basic_string_view).m_data :=
  ⟨by decide, copy_frame (char_traits Nat) char_traits_copy_assigns
    [97, 98, 99, 100, 101, 7, 7, 7, 7, 7, 7, 7, 7, 7, 7] ⟨⟨0, 5⟩⟩ 5 100 2
    (by decide) (by decide) (by decide) (by decide)⟩

theorem copy_frame_scenario :
    basic_string_view.copy (char_traits Nat)
        [97, 98, 99, 100, 101, 7, 7, 7, 7, 7, 7, 7, 7, 7, 7] ⟨⟨0, 5⟩⟩ 5 100 2
      = some (3, [97, 98, 99, 100, 101, 99, 100, 101, 7, 7, 7, 7, 7, 7, 7]) := by
  decide

/-! ## Construction -/

theorem indexOf_first_zero {α : Type} [DecidableEq α] [Zero α] :
    ∀ (l : List α) (L : Nat), l[L]? = some 0 → (∀ i : Nat, i < L → l[i]? ≠ some 0) →
      (0 : α) ∈ l ∧ l.indexOf 0 = L
  | [], L, h, _ => by simp at h
  | x :: t, 0, h, _ => by
    have hx : x = 0 := by simpa using h
    subst hx
    exact ⟨List.mem_cons_self _ _, List.indexOf_cons_self _ _⟩
  | x :: t, L + 1, h, hpre => by
    have hx : x ≠ 0 := by
      have h0 := hpre 0 (by omega)
      simpa using h0
    have ih := indexOf_first_zero t L (by simpa using h) (fun i hi => by
      have h1 := hpre (i + 1) (by omega)
      simpa using h1)
    exact ⟨List.mem_cons_of_mem _ ih.1, by rw [List.indexOf_cons_ne _ hx, ih.2]⟩

theorem deref_eq_drop {α : Type} (mem : List α) (s : Int) (i : Nat) (hs : 0 ≤ s) :
    deref mem (s + (i : Int)) = (mem.drop s.toNat)[i]? := by
  unfold deref
  rw [if_pos (by omega), List.getElem?_drop]
  congr 1
  omega

theorem char_traits_length_scans {α : Type} [LinearOrder α] [Zero α] :
    (char_traits α).length_scans := by
  intro mem s L hr hz hpre
  have hs : 0 ≤ s := hr.1
  rw [deref_eq_drop mem s L hs] at hz
  have hpre' : ∀ i : Nat, i < L → (mem.drop s.toNat)[i]? ≠ some 0 := by
    intro i hi
    rw [← deref_eq_drop mem s i hs]
    exact hpre i hi
  obtain ⟨hmem, hidx⟩ := indexOf_first_zero (mem.drop s.toNat) L hz hpre'
  show char_traits.length mem s = some L
  unfold char_traits.length
  rw [if_pos hs, if_pos hmem, hidx]

/-- C12: the view constructed over the buffer "abcde" (from the null-terminated
pointer, from the pointer and the length 5, or from the literal, a const array of
6 units for which the pointer constructor is selected) has `size() == 5` and the units
a, b, c, d, e; `substr(2)` is the three units c, d, e at offset 2 and compares
equal to "cde" (and greater than "bc"); `substr(1, 2)` is the two units b, c at
offset 1 and compares equal to "bc" (and less than "cde" and "bcd"); after
`remove_prefix(1)` and then `remove_suffix(1)` the view is the three units b, c, d
at offset 1, and `compare("bcd") == 0` (while against "bc" it is positive, and the
untrimmed view compares negative against "bcd"). -/
theorem abcde_scenario :
    ∃ v : basic_string_view,
      basic_string_view.from_cstr (char_traits Nat) scenario_memory 0 = some v ∧
      basic_string_view.from_ptr_count 0 5 = v ∧
      basic_string_view.from_array 0 5 = v ∧
      construct_from_array (char_traits Nat) scenario_memory 0 6 true = some v ∧
      v.size = 5 ∧
      v.data = 0 ∧
      span.elements scenario_memory v.m_data = [some 97, some 98, some 99, some 100, some 101] ∧
      (v.substr 2 basic_string_view.npos).data = 2 ∧
      (v.substr 2 basic_string_view.npos).size = 3 ∧
      span.elements scenario_memory (v.substr 2 basic_string_view.npos).m_data
        = [some 99, some 100, some 101] ∧
      basic_string_view.compare_cstr (char_traits Nat) scenario_memory
        (v.substr 2 basic_string_view.npos) 6 = some 0 ∧
      basic_string_view.compare_cstr (char_traits Nat) scenario_memory
        (v.substr 2 basic_string_view.npos) 10 = some 1 ∧
      (v.substr 1 2).data = 1 ∧
      (v.substr 1 2).size = 2 ∧
      span.elements scenario_memory (v.substr 1 2).m_data = [some 98, some 99] ∧
      basic_string_view.compare_cstr (char_traits Nat) scenario_memory
        (v.substr 1 2) 10 = some 0 ∧
      basic_string_view.compare_cstr (char_traits Nat) scenario_memory
        (v.substr 1 2) 6 = some (-1) ∧
      basic_string_view.compare_cstr (char_traits Nat) scenario_memory
        (v.substr 1 2) 13 = some (-1) ∧
      basic_string_view.data
        (basic_string_view.remove_suffix ( basic_string_view.remove_prefix v 1) 1) = 1 ∧
      basic_string_view.size
        (basic_string_view.remove_suffix ( basic_string_view.remove_prefix v 1) 1) = 3 ∧
      span.elements scenario_memory
        (basic_string_view.remove_suffix ( basic_string_view.remove_prefix v 1) 1).m_data
        = [some 98, some 99, some 100] ∧
      basic_string_view.compare_cstr (char_traits Nat) scenario_memory
        (basic_string_view.remove_suffix ( basic_string_view.remove_prefix v 1) 1) 13 = some 0 ∧
      basic_string_view.compare_cstr (char_traits Nat) scenario_memory
        (basic_string_view.remove_suffix ( basic_string_view.remove_prefix v 1) 1) 10 = some 1 ∧
      basic_string_view.compare_cstr (char_traits Nat) scenario_memory v 13 = some (-1) := by
  refine ⟨⟨⟨0, 5⟩⟩, ?_⟩
  constructorm* _ ∧ _
  all_goals decide

/-- C13: round trip of construction: when the first terminator at or after `p` is
at index `L`, and `Traits::length` finds it, `basic_string_view(p)` is defined and
has the same `data()` and `size()` as `basic_string_view(p, L)` (the size is `L`
when `L` is a `ptrdiff_t` value), and against every third view `w` the two give
the same result of `compare`, on either side. -/
theorem construction_round_trip {α : Type} [Zero α] (T : Traits α) (hT : T.length_scans)
    (mem : List α) (p : Int) (L : Nat)
    (hr : readable mem p (L + 1)) (hz : deref mem (p + (L : Int)) = some 0)
    (hpre : ∀ i : Nat, i < L → deref mem (p + (i : Int)) ≠ some 0) :
    ∃ a, basic_string_view.from_cstr T mem p = some a ∧
      a.data = (basic_string_view.from_ptr_count p L).data ∧
      a.size = (basic_string_view.from_ptr_count p L).size ∧
      ((L : Int) ≤ PTRDIFF_MAX → a.size = L) ∧
      ∀ w : basic_string_view,
        a.compare T mem w = (basic_string_view.from_ptr_count p L).compare T mem w ∧
        w.compare T mem a = w.compare T mem (basic_string_view.from_ptr_count p L) := by
  have hlen := hT mem p L hr hz hpre
  refine ⟨basic_string_view.from_ptr_count p L, ?_, rfl, rfl, fun hL => ?_,
    fun w => ⟨rfl, rfl⟩⟩
  · unfold basic_string_view.from_cstr
    rw [hlen]
    rfl
  · show to_size (to_ptrdiff L) = L
    rw [to_ptrdiff_of_lt L hL]
    have h1 := to_size_of_wf (L : Int) (by omega) hL
    omega

theorem construction_round_trip_witness :
    (readable scenario_memory 0 (5 + 1) ∧
      deref scenario_memory (0 + ((5 : Nat) : Int)) = some 0 ∧
      ∀ i : Nat, i < 5 → deref scenario_memory (0 + (i : Int)) ≠ some 0) ∧
    ∃ a, basic_string_view.from_cstr (char_traits Nat) scenario_memory 0 = some a ∧
      a.data = (basic_string_view.from_ptr_count 0 5).data ∧
      a.size = (basic_string_view.from_ptr_count 0 5).size ∧
      ((((5 : Nat) : Int)) ≤ PTRDIFF_MAX → a.size = 5) ∧
      ∀ w : basic_string_view,
        a.compare (char_traits Nat) scenario_memory w
          = (basic_string_view.from_ptr_count 0 5).compare (char_traits Nat) scenario_memory w ∧
        w.compare (char_traits Nat) scenario_memory a
          = w.compare (char_traits Nat) scenario_memory (basic_string_view.from_ptr_count 0 5) :=
  ⟨by decide, construction_round_trip (char_traits Nat) char_traits_length_scans
    scenario_memory 0 5 (by decide) (by decide) (by decide)⟩

theorem to_ptrdiff_to_size (m : Int) (h0 : PTRDIFF_MIN ≤ m) (h1 : m ≤ PTRDIFF_MAX) :
    to_ptrdiff (to_size m) = m := by
  unfold PTRDIFF_MIN at h0
  unfold PTRDIFF_MAX at h1
  unfold to_ptrdiff to_size
  split <;> omega

theorem to_size_lt (m : Int) : to_size m < 2 ^ 64 := by
  unfold to_size
  omega

/-- C14: for every string view `v` (whose size is a `ptrdiff_t` value),
`v.substr(0, npos)`, which is also what `v.substr()` with its default arguments
is, computes the span of `v` itself, and the view made of it has the same `data()`
and the same `size()` as `v`: it is `v`. -/
theorem substr_whole (v : basic_string_view) (hv : v.m_data.representable) :
    v.substr_span 0 basic_string_view.npos = v.m_data ∧
    v.substr 0 basic_string_view.npos = v ∧
    (v.substr 0 basic_string_view.npos).data = v.data ∧
    (v.substr 0 basic_string_view.npos).size = v.size := by
  have hspan : v.substr_span 0 basic_string_view.npos = v.m_data := by
    obtain ⟨⟨ptr, sz⟩⟩ := v
    have hlt := to_size_lt sz
    have hn : min basic_string_view.npos (size_sub (to_size sz) 0) = to_size sz := by
      unfold basic_string_view.npos size_sub
      omega
    have h0 : to_ptrdiff 0 = 0 := by decide
    show (⟨ptr + to_ptrdiff 0,
      to_ptrdiff (min basic_string_view.npos (size_sub (to_size sz) 0))⟩ : span) = ⟨ptr, sz⟩
    rw [hn, h0, to_ptrdiff_to_size sz hv.1 hv.2, add_zero]
  have heq : v.substr 0 basic_string_view.npos = v := by
    show basic_string_view.from_span (v.substr_span 0 basic_string_view.npos) = v
    rw [hspan]
    rfl
  exact ⟨hspan, heq, by rw [heq], by rw [heq]⟩

theorem substr_whole_witness :
    span.representable (⟨⟨3, 7⟩⟩ : basic_string_view).m_data ∧
    (basic_string_view.substr_span ⟨⟨3, 7⟩⟩ 0 basic_string_view.npos
      = (⟨⟨3, 7⟩⟩ : basic_string_view).m_data ∧
    basic_string_view.substr ⟨⟨3, 7⟩⟩ 0 basic_string_view.npos = ⟨⟨3, 7⟩⟩ ∧
    (basic_string_view.substr ⟨⟨3, 7⟩⟩ 0 basic_string_view.npos).data
      = basic_string_view.data ⟨⟨3, 7⟩⟩ ∧
    (basic_string_view.substr ⟨⟨3, 7⟩⟩ 0 basic_string_view.npos).size
      = basic_string_view.size ⟨⟨3, 7⟩⟩) :=
  ⟨by decide, substr_whole ⟨⟨3, 7⟩⟩ (by decide)⟩

/-! ## Narrowing only shrinks -/

/-- C15: every narrowing operation only shrinks the addressable range: for a span
`s` and a string view `v` with non-negative sizes and in-contract arguments, the
results of `subspan(off)`, `subspan(off, count)`, `substr(pos, k)` (the span it
computes, and the view made of it), `remove_prefix(n)` and `remove_suffix(n)` have
a range `[d', d' + s')` with `d <= d'`, `0 <= s' <= s` and `d' + s' <= d + s`, and
`size()` does not grow. -/
theorem narrowing_shrinks (s : span) (v : basic_string_view) (off count : Int)
    (pos k n : Nat) (hv : v.m_data.wf)
    (hoff0 : 0 ≤ off) (hoff1 : off ≤ s.size) (hc0 : 0 ≤ count) (hc1 : off + count ≤ s.size)
    (hpos : pos ≤ v.size) (hn : n ≤ v.size) :
    s.contains (s.subspan_from off) ∧
    s.contains (s.subspan off count) ∧
    (v.m_data.contains (v.substr_span pos k) ∧
      v.m_data.contains (v.substr pos k).m_data ∧ (v.substr pos k).size ≤ v.size) ∧
    (v.m_data.contains ( basic_string_view.remove_prefix v n).m_data ∧
      basic_string_view.size ( basic_string_view.remove_prefix v n) ≤ v.size) ∧
    (v.m_data.contains (v.remove_suffix n).m_data ∧ (v.remove_suffix n).size ≤ v.size) := by
  have hsz := size_of_wf v hv
  have hmax := hv.2
  have h0 := hv.1
  have hcn : to_ptrdiff n = (n : Int) := to_ptrdiff_of_lt n (by omega)
  have hcp : to_ptrdiff pos = (pos : Int) := to_ptrdiff_of_lt pos (by omega)
  have hsubp := size_sub_of_le v.size pos hpos (by omega)
  have hsubn := size_sub_of_le v.size n hn (by omega)
  have hck : to_ptrdiff (min k (v.size - pos)) = ((min k (v.size - pos) : Nat) : Int) :=
    to_ptrdiff_of_lt _ (by omega)
  have hcs : to_ptrdiff (v.size - n) = ((v.size - n : Nat) : Int) :=
    to_ptrdiff_of_lt _ (by omega)
  have e1 : (v.substr pos k).m_data
      = ⟨v.m_data.m_ptr + (pos : Int), ((min k (v.size - pos) : Nat) : Int)⟩ := by
    show (⟨v.m_data.m_ptr + to_ptrdiff pos, to_ptrdiff (min k (size_sub v.size pos))⟩ : span) = _
    rw [hsubp, hcp, hck]
  have e2 : ( basic_string_view.remove_prefix v n).m_data
      = ⟨v.m_data.m_ptr + (n : Int), v.m_data.m_size - (n : Int)⟩ := by
    show (⟨v.m_data.m_ptr + to_ptrdiff n, v.m_data.m_size - to_ptrdiff n⟩ : span) = _
    rw [hcn]
  have e3 : (v.remove_suffix n).m_data = ⟨v.m_data.m_ptr, ((v.size - n : Nat) : Int)⟩ := by
    show (⟨v.m_data.m_ptr, to_ptrdiff (size_sub v.size n)⟩ : span) = _
    rw [hsubn, hcs]
  have hsize : ∀ w : basic_string_view, 0 ≤ w.m_data.m_size → w.m_data.m_size ≤ v.m_data.m_size →
      w.size ≤ v.size := by
    intro w hw0 hw1
    have hw := to_size_of_wf w.m_data.m_size hw0 (by omega)
    have hws : w.size = to_size w.m_data.m_size := rfl
    omega
  refine ⟨?_, ?_, ⟨?_, ?_, ?_⟩, ⟨?_, ?_⟩, ⟨?_, ?_⟩⟩
  · unfold span.contains span.subspan_from span.data span.size at *
    simp only
    omega
  · unfold span.contains span.subspan span.data span.size at *
    simp only
    omega
  · show v.m_data.contains (v.substr pos k).m_data
    rw [e1]
    unfold span.contains span.data span.size
    simp only
    omega
  · rw [e1]
    unfold span.contains span.data span.size
    simp only
    omega
  · apply hsize
    · rw [e1]; simp only; omega
    · rw [e1]; simp only; omega
  · rw [e2]
    unfold span.contains span.data span.size
    simp only
    omega
  · apply hsize
    · rw [e2]; simp only; omega
    · rw [e2]; simp only; omega
  · rw [e3]
    unfold span.contains span.data span.size
    simp only
    omega
  · apply hsize
    · rw [e3]; simp only; omega
    · rw [e3]; simp only; omega

theorem narrowing_shrinks_witness :
    (span.wf (⟨⟨2, 5⟩⟩ : basic_string_view).m_data ∧ (0 : Int) ≤ 1 ∧ (1 : Int) ≤ span.size ⟨2, 5⟩ ∧
      (0 : Int) ≤ 3 ∧ (1 : Int) + 3 ≤ span.size ⟨2, 5⟩ ∧
      1 ≤ basic_string_view.size ⟨⟨2, 5⟩⟩ ∧ 2 ≤ basic_string_view.size ⟨⟨2, 5⟩⟩) ∧
    (span.contains ⟨2, 5⟩ (span.subspan_from ⟨2, 5⟩ 1) ∧
    span.contains ⟨2, 5⟩ (span.subspan ⟨2, 5⟩ 1 3) ∧
    (span.contains (⟨⟨2, 5⟩⟩ : basic_string_view).m_data
        (basic_string_view.substr_span ⟨⟨2, 5⟩⟩ 1 100) ∧
      span.contains (⟨⟨2, 5⟩⟩ : basic_string_view).m_data
        (basic_string_view.substr ⟨⟨2, 5⟩⟩ 1 100).m_data ∧
      (basic_string_view.substr ⟨⟨2, 5⟩⟩ 1 100).size ≤ basic_string_view.size ⟨⟨2, 5⟩⟩) ∧
    (span.contains (⟨⟨2, 5⟩⟩ : basic_string_view).m_data
        ( basic_string_view.remove_prefix ⟨⟨2, 5⟩⟩ 2).m_data ∧
      basic_string_view.size ( basic_string_view.remove_prefix ⟨⟨2, 5⟩⟩ 2)
        ≤ basic_string_view.size ⟨⟨2, 5⟩⟩) ∧
    (span.contains (⟨⟨2, 5⟩⟩ : basic_string_view).m_data
        (basic_string_view.remove_suffix ⟨⟨2, 5⟩⟩ 2).m_data ∧
      (basic_string_view.remove_suffix ⟨⟨2, 5⟩⟩ 2).size ≤ basic_string_view.size ⟨⟨2, 5⟩⟩)) :=
  ⟨by decide, narrowing_shrinks ⟨2, 5⟩ ⟨⟨2, 5⟩⟩ 1 3 1 100 2 (by decide) (by decide) (by decide)
    (by decide) (by decide) (by decide) (by decide)⟩

/-! ## `substr` and errors -/

theorem substr_eq_spec_sub_view (v : basic_string_view) (pos count : Nat)
    (hv : v.m_data.wf) (hpos : pos ≤ v.size) :
    v.substr pos count = spec_sub_view v pos count := by
  show basic_string_view.from_span (v.substr_span pos count) = _
  rw [substr_span_eq v pos count hv hpos]
  rfl

/-- C16, as stated, fails: on the 5-unit view at address 0, `substr(6, 1)` has
`pos > size()`, where the specification's `substr` reports an error; the body of
`substr` has no check and computes the span `(6, 1)`, and the view made of it is
what is returned. -/
theorem substr_reports_no_error :
    basic_string_view.size ⟨⟨0, 5⟩⟩ < 6 ∧
    spec_substr ⟨⟨0, 5⟩⟩ 6 1 = none ∧
    basic_string_view.substr_span ⟨⟨0, 5⟩⟩ 6 1 = ⟨6, 1⟩ ∧
    basic_string_view.substr ⟨⟨0, 5⟩⟩ 6 1 = ⟨⟨6, 1⟩⟩ ∧
    spec_substr ⟨⟨0, 5⟩⟩ 6 1 ≠ some (basic_string_view.substr ⟨⟨0, 5⟩⟩ 6 1) :=
  ⟨by decide, by decide, by decide, by decide, by decide⟩

/-- C16, amended: `substr` has no error result; for a view `v` (with a size that is
a non-negative `ptrdiff_t`) and `pos <= v.size()` its body computes, however large
`count` is, the span starting at `pos` of `min(count, v.size() - pos)` elements,
and the view made of it is the view the specification describes. -/
theorem substr_in_contract (v : basic_string_view) (pos count : Nat)
    (hv : v.m_data.wf) (hpos : pos ≤ v.size) :
    v.substr_span pos count
      = ⟨v.data + (pos : Int), ((min count (v.size - pos) : Nat) : Int)⟩ ∧
    spec_substr v pos count = some (v.substr pos count) ∧
    (v.substr pos count).size = min count (v.size - pos) := by
  have hsz := size_of_wf v hv
  have hmax := hv.2
  have hmin : ((min count (v.size - pos) : Nat) : Int) ≤ PTRDIFF_MAX := by omega
  have e1 := substr_eq_spec_sub_view v pos count hv hpos
  refine ⟨substr_span_eq v pos count hv hpos, ?_, ?_⟩
  · unfold spec_substr
    rw [if_neg (by omega), e1]
    rfl
  · rw [e1]
    show to_size ((min count (v.size - pos) : Nat) : Int) = _
    have h1 := to_size_of_wf ((min count (v.size - pos) : Nat) : Int) (by omega) hmin
    omega

theorem substr_in_contract_witness :
    (span.wf (⟨⟨0, 5⟩⟩ : basic_string_view).m_data ∧ 5 ≤ basic_string_view.size ⟨⟨0, 5⟩⟩) ∧
    (basic_string_view.substr_span ⟨⟨0, 5⟩⟩ 5 basic_string_view.npos
        = ⟨basic_string_view.data ⟨⟨0, 5⟩⟩ + ((5 : Nat) : Int),
          ((min basic_string_view.npos (basic_string_view.size ⟨⟨0, 5⟩⟩ - 5) : Nat) : Int)⟩ ∧
    spec_substr ⟨⟨0, 5⟩⟩ 5 basic_string_view.npos
        = some (basic_string_view.substr ⟨⟨0, 5⟩⟩ 5 basic_string_view.npos) ∧
    (basic_string_view.substr ⟨⟨0, 5⟩⟩ 5 basic_string_view.npos).size
        = min basic_string_view.npos (basic_string_view.size ⟨⟨0, 5⟩⟩ - 5)) :=
  ⟨by decide, substr_in_contract ⟨⟨0, 5⟩⟩ 5 basic_string_view.npos (by decide) (by decide)⟩

/-! ## The `compare` overloads -/

/-- C17: every `compare` overload is the canonical `(view, view)` compare on the
corresponding sub-views.  As written in the source: of `substr(pos1, count1)`
against `v`, against `v.substr(pos2, count2)`, against `basic_string_view(s)`
(undefined when that construction is) and against `basic_string_view(s, count2)`,
and `compare(s)` is `compare(basic_string_view(s))`.  And in-contract (sizes that
are non-negative `ptrdiff_t` values, `pos1 <= a.size()`, `pos2 <= v.size()`, the
first terminator at or after `s` at index `L` and found by `Traits::length`) those
sub-views are pinned: the overloads compare the view at `a.data() + pos1` of length
`min(count1, a.size() - pos1)` with `v`, with the view at `v.data() + pos2` of
length `min(count2, v.size() - pos2)`, with the `L` units at `s`, and with the
`count2` units at `s`. -/
theorem compare_overloads {α : Type} [Zero α] (T : Traits α) (mem : List α)
    (a v : basic_string_view) (pos1 count1 pos2 count2 : Nat) (s : Int) :
    (a.compare_substr T mem pos1 count1 v = (a.substr pos1 count1).compare T mem v ∧
    a.compare_substr_substr T mem pos1 count1 v pos2 count2
      = (a.substr pos1 count1).compare T mem (v.substr pos2 count2) ∧
    a.compare_cstr T mem s
      = (basic_string_view.from_cstr T mem s).bind (fun w => a.compare T mem w) ∧
    a.compare_substr_cstr T mem pos1 count1 s
      = (basic_string_view.from_cstr T mem s).bind
          (fun w => (a.substr pos1 count1).compare T mem w) ∧
    a.compare_substr_ptr_count T mem pos1 count1 s count2
      = (a.substr pos1 count1).compare T mem (basic_string_view.from_ptr_count s count2)) ∧
    ∀ L : Nat, a.m_data.wf → v.m_data.wf → pos1 ≤ a.size → pos2 ≤ v.size →
      T.length_scans → readable mem s (L + 1) → deref mem (s + (L : Int)) = some 0 →
      (∀ i : Nat, i < L → deref mem (s + (i : Int)) ≠ some 0) →
      a.compare_substr T mem pos1 count1 v
        = (spec_sub_view a pos1 count1).compare T mem v ∧
      a.compare_substr_substr T mem pos1 count1 v pos2 count2
        = (spec_sub_view a pos1 count1).compare T mem (spec_sub_view v pos2 count2) ∧
      a.compare_cstr T mem s = a.compare T mem (basic_string_view.from_ptr_count s L) ∧
      a.compare_substr_cstr T mem pos1 count1 s
        = (spec_sub_view a pos1 count1).compare T mem
            (basic_string_view.from_ptr_count s L) ∧
      a.compare_substr_ptr_count T mem pos1 count1 s count2
        = (spec_sub_view a pos1 count1).compare T mem
            (basic_string_view.from_ptr_count s count2) := by
  refine ⟨⟨rfl, rfl, ?_, ?_, rfl⟩, ?_⟩
  · unfold basic_string_view.compare_cstr
    cases basic_string_view.from_cstr T mem s <;> rfl
  · unfold basic_string_view.compare_substr_cstr
    cases basic_string_view.from_cstr T mem s <;> rfl
  · intro L ha hv hp1 hp2 hT hr hz hpre
    have ea := substr_eq_spec_sub_view a pos1 count1 ha hp1
    have ev := substr_eq_spec_sub_view v pos2 count2 hv hp2
    have hlen := hT mem s L hr hz hpre
    have hc : basic_string_view.from_cstr T mem s
        = some (basic_string_view.from_ptr_count s L) := by
      unfold basic_string_view.from_cstr
      rw [hlen]
      rfl
    refine ⟨?_, ?_, ?_, ?_, ?_⟩
    · unfold basic_string_view.compare_substr
      rw [ea]
    · unfold basic_string_view.compare_substr_substr
      rw [ea, ev]
    · unfold basic_string_view.compare_cstr
      rw [hc]
    · unfold basic_string_view.compare_substr_cstr
      rw [hc, ea]
    · unfold basic_string_view.compare_substr_ptr_count
      rw [ea]

theorem compare_overloads_witness :
    (span.wf (⟨⟨0, 5⟩⟩ : basic_string_view).m_data ∧
      span.wf (⟨⟨13, 3⟩⟩ : basic_string_view).m_data ∧
      1 ≤ basic_string_view.size ⟨⟨0, 5⟩⟩ ∧ 0 ≤ basic_string_view.size ⟨⟨13, 3⟩⟩ ∧
      readable scenario_memory 10 (2 + 1) ∧
      deref scenario_memory (10 + ((2 : Nat) : Int)) = some 0 ∧
      ∀ i : Nat, i < 2 → deref scenario_memory (10 + (i : Int)) ≠ some 0) ∧
    (basic_string_view.compare_substr (char_traits Nat) scenario_memory ⟨⟨0, 5⟩⟩ 1 3 ⟨⟨13, 3⟩⟩
        = (spec_sub_view ⟨⟨0, 5⟩⟩ 1 3).compare (char_traits Nat) scenario_memory ⟨⟨13, 3⟩⟩ ∧
      basic_string_view.compare_substr_substr (char_traits Nat) scenario_memory
          ⟨⟨0, 5⟩⟩ 1 3 ⟨⟨13, 3⟩⟩ 0 2
        = (spec_sub_view ⟨⟨0, 5⟩⟩ 1 3).compare (char_traits Nat) scenario_memory
            (spec_sub_view ⟨⟨13, 3⟩⟩ 0 2) ∧
      basic_string_view.compare_cstr (char_traits Nat) scenario_memory ⟨⟨0, 5⟩⟩ 10
        = basic_string_view.compare (char_traits Nat) scenario_memory ⟨⟨0, 5⟩⟩
            (basic_string_view.from_ptr_count 10 2) ∧
      basic_string_view.compare_substr_cstr (char_traits Nat) scenario_memory ⟨⟨0, 5⟩⟩ 1 3 10
        = (spec_sub_view ⟨⟨0, 5⟩⟩ 1 3).compare (char_traits Nat) scenario_memory
            (basic_string_view.from_ptr_count 10 2) ∧
      basic_string_view.compare_substr_ptr_count (char_traits Nat) scenario_memory
          ⟨⟨0, 5⟩⟩ 1 3 10 1
        = (spec_sub_view ⟨⟨0, 5⟩⟩ 1 3).compare (char_traits Nat) scenario_memory
            (basic_string_view.from_ptr_count 10 1)) :=
  ⟨⟨by decide, by decide, by decide, by decide, by decide, by decide, by decide⟩,
    (compare_overloads (char_traits Nat) scenario_memory ⟨⟨0, 5⟩⟩ ⟨⟨13, 3⟩⟩ 1 3 0 2 10).2 2
      (by decide) (by decide) (by decide) (by decide) char_traits_length_scans
      (by decide) (by decide) (by decide)⟩

theorem compare_overloads_scenario :
    basic_string_view.compare_substr (char_traits Nat) scenario_memory ⟨⟨0, 5⟩⟩ 2 3 ⟨⟨6, 3⟩⟩
      = some 0 ∧
    basic_string_view.compare_substr (char_traits Nat) scenario_memory ⟨⟨0, 5⟩⟩ 1 3 ⟨⟨6, 3⟩⟩
      = some (-1) ∧
    basic_string_view.compare_substr_substr (char_traits Nat) scenario_memory
      ⟨⟨0, 5⟩⟩ 1 2 ⟨⟨13, 3⟩⟩ 0 2 = some 0 ∧
    basic_string_view.compare_substr_substr (char_traits Nat) scenario_memory
      ⟨⟨0, 5⟩⟩ 2 2 ⟨⟨13, 3⟩⟩ 0 2 = some 1 ∧
    basic_string_view.compare_cstr (char_traits Nat) scenario_memory ⟨⟨0, 5⟩⟩ 6 = some (-1) ∧
    basic_string_view.compare_substr_cstr (char_traits Nat) scenario_memory ⟨⟨0, 5⟩⟩ 1 3 13
      = some 0 ∧
    basic_string_view.compare_substr_cstr (char_traits Nat) scenario_memory ⟨⟨0, 5⟩⟩ 1 3 10
      = some 1 ∧
    basic_string_view.compare_substr_ptr_count (char_traits Nat) scenario_memory
      ⟨⟨0, 5⟩⟩ 1 4 13 2 = some 1 :=
  ⟨by decide, by decide, by decide, by decide, by decide, by decide, by decide, by decide⟩

/-- The array constructor on its own: `m_data(s, N)` gives a view with `data()` at
the first element of the array and `size() == N`, whose elements are all `N` units
of the array, a trailing terminator included. -/
theorem from_array_data_size {α : Type} (mem : List α) (s : Int) (N : Nat)
    (hN : (N : Int) ≤ PTRDIFF_MAX) :
    (basic_string_view.from_array s N).data = s ∧
    (basic_string_view.from_array s N).size = N ∧
    ∀ i : Nat, i < N →
      (basic_string_view.from_array s N).index mem i = deref mem (s + (i : Int)) := by
  have hc := to_ptrdiff_of_lt N hN
  have hsz : (basic_string_view.from_array s N).size = N := by
    show to_size (to_ptrdiff N) = N
    rw [hc]
    have h1 := to_size_of_wf (N : Int) (by omega) hN
    omega
  refine ⟨rfl, hsz, fun i hi => ?_⟩
  show deref mem (s + to_ptrdiff i) = _
  rw [to_ptrdiff_of_lt i (by omega)]

theorem from_array_data_size_witness :
    (((4 : Nat) : Int) ≤ PTRDIFF_MAX) ∧
    ((basic_string_view.from_array 0 4).data = 0 ∧
    (basic_string_view.from_array 0 4).size = 4 ∧
    ∀ i : Nat, i < 4 →
      (basic_string_view.from_array 0 4).index [97, 98, 99, 0] i
        = deref [97, 98, 99, 0] (0 + (i : Int))) :=
  ⟨by decide, from_array_data_size [97, 98, 99, 0] 0 4 (by decide)⟩

/-- C18, at the failing input: for a const array of `N = 4` units holding "abc" and
a terminator (a string literal is such an array), construction selects the pointer
constructor, so the view has `size() == 3` and the terminator is not counted; the
array constructor, which gives `size() == 4`, is selected only for a non-const
array. -/
theorem const_array_construction_uses_length :
    construct_from_array (char_traits Nat) [97, 98, 99, 0] 0 4 true = some ⟨⟨0, 3⟩⟩ ∧
    (construct_from_array (char_traits Nat) [97, 98, 99, 0] 0 4 true).map
      basic_string_view.size = some 3 ∧
    construct_from_array (char_traits Nat) [97, 98, 99, 0] 0 4 false = some ⟨⟨0, 4⟩⟩ ∧
    (construct_from_array (char_traits Nat) [97, 98, 99, 0] 0 4 false).map
      basic_string_view.size = some 4 ∧
    (basic_string_view.from_array 0 4).size = 4 ∧
    (basic_string_view.from_array 0 4).index [97, 98, 99, 0] 3 = some 0 ∧
    (basic_string_view.from_cstr (char_traits Nat) [97, 98, 99, 0] 0).map basic_string_view.size
      = some 3 :=
  ⟨by decide, by decide, by decide, by decide, by decide, by decide, by decide⟩

/-! ## `at` -/

/-- C19: for a string view `v` with a valid `(data, size)` and `pos < v.size()`,
`v.at(pos)` returns the same code unit as `v[pos]`; and `at` has no bounds check of
its own: at every position, in range or not, it is what `operator[]` is. -/
theorem at_same_as_index {α : Type} (mem : List α) (v : basic_string_view) (pos : Nat)
    (hv : v.m_data.valid mem) (hpos : pos < v.size) :
    (∃ x, v.at mem pos = some x ∧ v.index mem pos = some x) ∧
    ∀ q : Nat, v.at mem q = v.index mem q := by
  refine ⟨?_, fun _ => rfl⟩
  obtain ⟨hw, hp, hlen⟩ := hv
  have hsz := size_of_wf v hw
  have hmax := hw.2
  have hidx := index_eq_deref mem v pos hw hpos
  obtain ⟨x, hx, _⟩ := deref_of_readable mem (v.data + (pos : Int))
    (by unfold basic_string_view.data span.data; omega)
    (by unfold basic_string_view.data span.data; omega)
  exact ⟨x, by show v.index mem pos = some x; rw [hidx, hx], by rw [hidx, hx]⟩

theorem at_same_as_index_witness :
    (span.valid [97, 98, 99, 100, 101] (⟨⟨1, 3⟩⟩ : basic_string_view).m_data ∧
      2 < basic_string_view.size ⟨⟨1, 3⟩⟩) ∧
    ((∃ x, basic_string_view.at [97, 98, 99, 100, 101] ⟨⟨1, 3⟩⟩ 2 = some x ∧
        basic_string_view.index [97, 98, 99, 100, 101] ⟨⟨1, 3⟩⟩ 2 = some x) ∧
    ∀ q : Nat, basic_string_view.at [97, 98, 99, 100, 101] ⟨⟨1, 3⟩⟩ q
      = basic_string_view.index [97, 98, 99, 100, 101] ⟨⟨1, 3⟩⟩ q) :=
  ⟨by decide, at_same_as_index [97, 98, 99, 100, 101] ⟨⟨1, 3⟩⟩ 2 (by decide) (by decide)⟩

/-! ## `make_span` -/

theorem deref_in_container {α : Type} (pre cs post : List α) (i : Nat) (hi : i < cs.length) :
    deref (pre ++ cs ++ post) ((pre.length : Int) + (i : Int)) = cs[i]? := by
  unfold deref
  rw [if_pos (by omega)]
  have hidx : ((pre.length : Int) + (i : Int)).toNat = pre.length + i := by omega
  rw [hidx, List.append_assoc, List.getElem?_append_right (by omega),
    List.getElem?_append_left (by omega)]
  congr 1
  omega

/-- C20: for a non-empty container `cs` whose elements lie contiguously in memory
(after `pre`, before `post`), `make_span(cs)` is defined and is a span whose
`data()` is the address of the first element of `cs` and whose `size()` is the
number of elements of `cs`, and `make_span(cs)[i]` is the `i`-th element of `cs`
for every `i < size()`. -/
theorem make_span_container_spec {α : Type} (pre cs post : List α) (hc : cs ≠ []) :
    ∃ s, make_span_container (pre ++ cs ++ post) (pre.length : Int)
        ((pre.length : Int) + (cs.length : Int)) = some s ∧
      s.data = (pre.length : Int) ∧ s.size = (cs.length : Int) ∧
      ∀ i : Nat, i < cs.length →
        ∃ h : i < cs.length, s.index (pre ++ cs ++ post) (i : Int) = some (cs.get ⟨i, h⟩) := by
  have hlen : 0 < cs.length := List.length_pos.mpr hc
  have hfirst := deref_in_container pre cs post 0 hlen
  have hlast := deref_in_container pre cs post (cs.length - 1) (by omega)
  rw [List.getElem?_eq_getElem hlen] at hfirst
  rw [List.getElem?_eq_getElem (by omega)] at hlast
  have e0 : (pre.length : Int) + ((0 : Nat) : Int) = (pre.length : Int) := by simp
  have e1 : (pre.length : Int) + ((cs.length - 1 : Nat) : Int)
      = (pre.length : Int) + (cs.length : Int) - 1 := by omega
  rw [e0] at hfirst
  rw [e1] at hlast
  refine ⟨⟨(pre.length : Int), (cs.length : Int)⟩, ?_, rfl, rfl, fun i hi => ⟨hi, ?_⟩⟩
  · unfold make_span_container
    rw [hfirst, hlast]
    simp only [span.from_range]
    congr 2
    omega
  · show deref (pre ++ cs ++ post) ((pre.length : Int) + (i : Int)) = _
    rw [deref_in_container pre cs post i hi, List.getElem?_eq_getElem hi]
    rfl

theorem make_span_container_spec_witness :
    ([20, 30, 40] : List Nat) ≠ [] ∧
    ∃ s, make_span_container ([10] ++ [20, 30, 40] ++ [50, 60])
        (([10] : List Nat).length : Int)
        ((([10] : List Nat).length : Int) + (([20, 30, 40] : List Nat).length : Int)) = some s ∧
      s.data = (([10] : List Nat).length : Int) ∧
      s.size = (([20, 30, 40] : List Nat).length : Int) ∧
      ∀ i : Nat, i < ([20, 30, 40] : List Nat).length →
        ∃ h : i < ([20, 30, 40] : List Nat).length,
          s.index ([10] ++ [20, 30, 40] ++ [50, 60]) (i : Int)
            = some (([20, 30, 40] : List Nat).get ⟨i, h⟩) :=
  ⟨by decide, make_span_container_spec [10] [20, 30, 40] [50, 60] (by decide)⟩

theorem make_span_scenario :
    make_span_container [10, 20, 30, 40, 50, 60] 1 4 = some ⟨1, 3⟩ ∧
    make_span 1 3 = ⟨1, 3⟩ ∧ make_span_range 1 4 = ⟨1, 3⟩ ∧
    make_span_container ([] : List Nat) 0 0 = none := by
  decide

theorem numeric_samples :
    next_pow2_u64 5 = 8 ∧ next_pow2_u64 8 = 8 ∧ next_pow2_u64 1 = 1 ∧ next_pow2_u64 0 = 0 ∧
    next_pow2_u64 (2 ^ 63 + 1) = 0 ∧ next_pow2_u32 1000 = 1024 ∧ next_pow2_u32 (2 ^ 31) = 2 ^ 31 ∧
    max_digits ⟨4, true⟩ 16 9 = some 8 ∧ max_digits ⟨4, true⟩ 2 0 = some 31 ∧
    max_digits ⟨1, false⟩ 3 9 = some 6 :=
  ⟨by decide, by decide, by decide, by decide, by decide, by decide, by decide, by decide,
    by decide, by decide⟩

/-! ## `next_pow2` -/

theorem smear_step (y z n m : Nat) (hm : m = 2 * n)
    (h : ∀ i : Nat, z.testBit i = true ↔ ∃ d : Nat, d < n ∧ y.testBit (i + d) = true) :
    ∀ i : Nat, (z ||| (z >>> n)).testBit i = true ↔
      ∃ d : Nat, d < m ∧ y.testBit (i + d) = true := by
  intro i
  rw [Nat.testBit_or, Nat.testBit_shiftRight, Bool.or_eq_true, h, h]
  constructor
  · rintro (⟨d, hd, ht⟩ | ⟨d, hd, ht⟩)
    · exact ⟨d, by omega, ht⟩
    · refine ⟨n + d, by omega, ?_⟩
      have e : i + (n + d) = n + i + d := by omega
      rw [e]
      exact ht
  · rintro ⟨d, hd, ht⟩
    by_cases hdn : d < n
    · exact Or.inl ⟨d, hdn, ht⟩
    · refine Or.inr ⟨d - n, by omega, ?_⟩
      have e : n + i + (d - n) = i + d := by omega
      rw [e]
      exact ht

theorem smear16_testBit (y : Nat) :
    ∀ i : Nat, (smear16 y).testBit i = true ↔ ∃ d : Nat, d < 32 ∧ y.testBit (i + d) = true := by
  have h0 : ∀ i : Nat, y.testBit i = true ↔ ∃ d : Nat, d < 1 ∧ y.testBit (i + d) = true := by
    intro i
    constructor
    · intro h
      exact ⟨0, by omega, h⟩
    · rintro ⟨d, hd, ht⟩
      have e : d = 0 := by omega
      subst e
      exact ht
  have h1 := smear_step y _ 1 2 rfl h0
  have h2 := smear_step y _ 2 4 rfl h1
  have h3 := smear_step y _ 4 8 rfl h2
  have h4 := smear_step y _ 8 16 rfl h3
  exact smear_step y _ 16 32 rfl h4

theorem testBit_top (y k : Nat) (hk : k ≠ 0) (hlo : 2 ^ (k - 1) ≤ y) (hhi : y < 2 ^ k) :
    y.testBit (k - 1) = true := by
  have hpow : 2 ^ k = 2 * 2 ^ (k - 1) := by
    have e : k = (k - 1) + 1 := by omega
    rw [e, Nat.pow_succ]
    simp
    ring
  have hr : y - 2 ^ (k - 1) < 2 ^ (k - 1) := by omega
  have e : y = 2 ^ (k - 1) + (y - 2 ^ (k - 1)) := by omega
  rw [e, Nat.testBit_two_pow_add_eq, Nat.testBit_lt_two_pow hr]
  rfl

theorem smear_all (y z w k : Nat)
    (h : ∀ i : Nat, z.testBit i = true ↔ ∃ d : Nat, d < w ∧ y.testBit (i + d) = true)
    (hk : k ≤ w) (hy : y < 2 ^ k) (hlo : k ≠ 0 → 2 ^ (k - 1) ≤ y) : z = 2 ^ k - 1 := by
  apply Nat.eq_of_testBit_eq
  intro i
  rw [Nat.testBit_two_pow_sub_one]
  by_cases hi : i < k
  · have top := testBit_top y k (by omega) (hlo (by omega)) hy
    have hz := (h i).mpr ⟨k - 1 - i, by omega, by
      have e : i + (k - 1 - i) = k - 1 := by omega
      rw [e]
      exact top⟩
    rw [hz]
    simp [hi]
  · have hz : z.testBit i = false := by
      by_contra hne
      have ht : z.testBit i = true := by
        cases hb : z.testBit i
        · exact absurd hb hne
        · rfl
      obtain ⟨d, _, hd⟩ := (h i).mp ht
      have hlt : y < 2 ^ (i + d) :=
        lt_of_lt_of_le hy (Nat.pow_le_pow_right (by omega) (by omega))
      rw [Nat.testBit_lt_two_pow hlt] at hd
      exact absurd hd (by decide)
    rw [hz]
    simp [hi]

theorem size_facts (y w : Nat) (hy : y < 2 ^ w) :
    y.size ≤ w ∧ y < 2 ^ y.size ∧ (y.size ≠ 0 → 2 ^ (y.size - 1) ≤ y) := by
  refine ⟨Nat.size_le.mpr hy, Nat.lt_size_self y, fun h => ?_⟩
  exact Nat.lt_size.mp (by omega)

theorem next_pow2_u64_eq (x : Nat) :
    next_pow2_u64 x = 2 ^ ((x + (2 ^ 64 - 1)) % 2 ^ 64).size % 2 ^ 64 := by
  have hy : (x + (2 ^ 64 - 1)) % 2 ^ 64 < 2 ^ 64 := Nat.mod_lt _ (by positivity)
  obtain ⟨hk, hlt, hlo⟩ := size_facts _ 64 hy
  have h64 := smear_step _ _ 32 64 rfl (smear16_testBit ((x + (2 ^ 64 - 1)) % 2 ^ 64))
  have hz := smear_all _ _ 64 _ h64 hk hlt hlo
  have hpos : 0 < 2 ^ ((x + (2 ^ 64 - 1)) % 2 ^ 64).size := by positivity
  show ((smear16 ((x + (2 ^ 64 - 1)) % 2 ^ 64) |||
    (smear16 ((x + (2 ^ 64 - 1)) % 2 ^ 64) >>> 32)) + 1) % 2 ^ 64 = _
  rw [hz]
  congr 1
  omega

theorem next_pow2_u32_eq (x : Nat) :
    next_pow2_u32 x = 2 ^ ((x + (2 ^ 32 - 1)) % 2 ^ 32).size % 2 ^ 32 := by
  have hy : (x + (2 ^ 32 - 1)) % 2 ^ 32 < 2 ^ 32 := Nat.mod_lt _ (by positivity)
  obtain ⟨hk, hlt, hlo⟩ := size_facts _ 32 hy
  have hz := smear_all _ _ 32 _ (smear16_testBit ((x + (2 ^ 32 - 1)) % 2 ^ 32)) hk hlt hlo
  have hpos : 0 < 2 ^ ((x + (2 ^ 32 - 1)) % 2 ^ 32).size := by positivity
  show (smear16 ((x + (2 ^ 32 - 1)) % 2 ^ 32) + 1) % 2 ^ 32 = _
  rw [hz]
  congr 1
  omega

theorem round_core (y w : Nat) (hy : y < 2 ^ w) :
    2 ^ y.size ≤ 2 ^ w ∧ y + 1 ≤ 2 ^ y.size ∧ ∀ j : Nat, y + 1 ≤ 2 ^ j → 2 ^ y.size ≤ 2 ^ j := by
  refine ⟨Nat.pow_le_pow_right (by omega) (Nat.size_le.mpr hy), Nat.lt_size_self y, fun j hj => ?_⟩
  exact Nat.pow_le_pow_right (by omega) (Nat.size_le.mpr (by omega))

theorem pow2_fixed (r x : Nat) (hx : x ≤ r) (hmin : ∀ j : Nat, x ≤ 2 ^ j → r ≤ 2 ^ j)
    (hp : ∃ j : Nat, x = 2 ^ j) : r = x := by
  obtain ⟨j, hj⟩ := hp
  have h := hmin j (by omega)
  omega

/-- C22: `next_pow2` rounds up to the next power of two: for a 64-bit `x` with
`1 <= x <= 2^63`, and for a 32-bit `y` with `1 <= y <= 2^31`, the result is a power
of two that is `>=` the argument and is the least such; so it is the argument itself
when that is a power of two. -/
theorem next_pow2_rounds_up (x y : Nat) (hx1 : 1 ≤ x) (hx2 : x ≤ 2 ^ 63)
    (hy1 : 1 ≤ y) (hy2 : y ≤ 2 ^ 31) :
    (∃ k : Nat, next_pow2_u64 x = 2 ^ k ∧ x ≤ 2 ^ k ∧ (∀ j : Nat, x ≤ 2 ^ j → 2 ^ k ≤ 2 ^ j) ∧
      ((∃ j : Nat, x = 2 ^ j) → next_pow2_u64 x = x)) ∧
    (∃ k : Nat, next_pow2_u32 y = 2 ^ k ∧ y ≤ 2 ^ k ∧ (∀ j : Nat, y ≤ 2 ^ j → 2 ^ k ≤ 2 ^ j) ∧
      ((∃ j : Nat, y = 2 ^ j) → next_pow2_u32 y = y)) := by
  constructor
  · have e : (x + (2 ^ 64 - 1)) % 2 ^ 64 = x - 1 := by omega
    obtain ⟨hle, hge, hmin⟩ := round_core (x - 1) 63 (by omega)
    have hval : next_pow2_u64 x = 2 ^ (x - 1).size := by
      rw [next_pow2_u64_eq, e]
      exact Nat.mod_eq_of_lt (by omega)
    have hx : x ≤ 2 ^ (x - 1).size := by omega
    have hmin' : ∀ j : Nat, x ≤ 2 ^ j → 2 ^ (x - 1).size ≤ 2 ^ j := fun j hj => hmin j (by omega)
    exact ⟨(x - 1).size, hval, hx, hmin', fun hp => by
      rw [hval]
      exact pow2_fixed _ x hx hmin' hp⟩
  · have e : (y + (2 ^ 32 - 1)) % 2 ^ 32 = y - 1 := by omega
    obtain ⟨hle, hge, hmin⟩ := round_core (y - 1) 31 (by omega)
    have hval : next_pow2_u32 y = 2 ^ (y - 1).size := by
      rw [next_pow2_u32_eq, e]
      exact Nat.mod_eq_of_lt (by omega)
    have hy : y ≤ 2 ^ (y - 1).size := by omega
    have hmin' : ∀ j : Nat, y ≤ 2 ^ j → 2 ^ (y - 1).size ≤ 2 ^ j := fun j hj => hmin j (by omega)
    exact ⟨(y - 1).size, hval, hy, hmin', fun hp => by
      rw [hval]
      exact pow2_fixed _ y hy hmin' hp⟩

theorem next_pow2_rounds_up_witness :
    (1 ≤ 5 ∧ 5 ≤ 2 ^ 63 ∧ 1 ≤ 1000 ∧ 1000 ≤ 2 ^ 31) ∧
    ((∃ k : Nat, next_pow2_u64 5 = 2 ^ k ∧ 5 ≤ 2 ^ k ∧ (∀ j : Nat, 5 ≤ 2 ^ j → 2 ^ k ≤ 2 ^ j) ∧
      ((∃ j : Nat, 5 = 2 ^ j) → next_pow2_u64 5 = 5)) ∧
    (∃ k : Nat, next_pow2_u32 1000 = 2 ^ k ∧ 1000 ≤ 2 ^ k ∧
      (∀ j : Nat, 1000 ≤ 2 ^ j → 2 ^ k ≤ 2 ^ j) ∧
      ((∃ j : Nat, 1000 = 2 ^ j) → next_pow2_u32 1000 = 1000))) :=
  ⟨by decide, next_pow2_rounds_up 5 1000 (by decide) (by decide) (by decide) (by decide)⟩

theorem wrap_core (y w : Nat) (hy : y < 2 ^ (w + 1)) :
    (2 ^ y.size % 2 ^ (w + 1) = 0 ∨ ∃ k : Nat, 2 ^ y.size % 2 ^ (w + 1) = 2 ^ k) ∧
    (2 ^ y.size % 2 ^ (w + 1) = 0 ↔ 2 ^ w ≤ y) := by
  have hk : y.size ≤ w + 1 := Nat.size_le.mpr hy
  by_cases hlt : y < 2 ^ w
  · have hk' : y.size ≤ w := Nat.size_le.mpr hlt
    have hp : 2 ^ y.size < 2 ^ (w + 1) :=
      Nat.pow_lt_pow_right (by omega) (by omega)
    have hmod : 2 ^ y.size % 2 ^ (w + 1) = 2 ^ y.size := Nat.mod_eq_of_lt hp
    have hpos : 0 < 2 ^ y.size := by positivity
    rw [hmod]
    exact ⟨Or.inr ⟨_, rfl⟩, iff_of_false (by omega) (by omega)⟩
  · have hge : 2 ^ w ≤ y := by omega
    have hk' : w < y.size := Nat.lt_size.mpr hge
    have e : y.size = w + 1 := by omega
    rw [e, Nat.mod_self]
    exact ⟨Or.inl rfl, iff_of_true rfl hge⟩

/-- C26: for every 64-bit `x` and every 32-bit `y`, with arithmetic modulo `2^64`
and `2^32`, `next_pow2` is either `0` or a power of two, and it is `0` exactly when
the argument is `0` or exceeds `2^63`, respectively `2^31`. -/
theorem next_pow2_zero_or_power (x y : Nat) (hx : x < 2 ^ 64) (hy : y < 2 ^ 32) :
    ((next_pow2_u64 x = 0 ∨ ∃ k : Nat, next_pow2_u64 x = 2 ^ k) ∧
      (next_pow2_u64 x = 0 ↔ x = 0 ∨ 2 ^ 63 < x)) ∧
    ((next_pow2_u32 y = 0 ∨ ∃ k : Nat, next_pow2_u32 y = 2 ^ k) ∧
      (next_pow2_u32 y = 0 ↔ y = 0 ∨ 2 ^ 31 < y)) := by
  constructor
  · obtain ⟨h1, h2⟩ := wrap_core ((x + (2 ^ 64 - 1)) % 2 ^ 64) 63 (Nat.mod_lt _ (by positivity))
    rw [next_pow2_u64_eq]
    refine ⟨h1, h2.trans ?_⟩
    omega
  · obtain ⟨h1, h2⟩ := wrap_core ((y + (2 ^ 32 - 1)) % 2 ^ 32) 31 (Nat.mod_lt _ (by positivity))
    rw [next_pow2_u32_eq]
    refine ⟨h1, h2.trans ?_⟩
    omega

theorem next_pow2_zero_or_power_witness :
    (2 ^ 63 + 1 < 2 ^ 64 ∧ 0 < 2 ^ 32) ∧
    (((next_pow2_u64 (2 ^ 63 + 1) = 0 ∨ ∃ k : Nat, next_pow2_u64 (2 ^ 63 + 1) = 2 ^ k) ∧
      (next_pow2_u64 (2 ^ 63 + 1) = 0 ↔ 2 ^ 63 + 1 = 0 ∨ 2 ^ 63 < 2 ^ 63 + 1)) ∧
    ((next_pow2_u32 0 = 0 ∨ ∃ k : Nat, next_pow2_u32 0 = 2 ^ k) ∧
      (next_pow2_u32 0 = 0 ↔ 0 = 0 ∨ 2 ^ 31 < 0))) :=
  ⟨by decide, next_pow2_zero_or_power (2 ^ 63 + 1) 0 (by decide) (by decide)⟩

/-! ## Iteration visits the elements -/

theorem visit_forward_spec {α : Type} (mem : List α) :
    ∀ (n fuel : Nat) (it : Int), n ≤ fuel →
      visit_forward mem (it + (n : Int)) fuel it
        = some ((List.range n).map fun (i : Nat) => deref mem (it + (i : Int)))
  | 0, fuel, it, _ => by
    cases fuel <;> simp [visit_forward]
  | n + 1, 0, it, h => by omega
  | n + 1, fuel + 1, it, h => by
    have hne : ¬ it = it + ((n + 1 : Nat) : Int) := by omega
    have e : it + ((n + 1 : Nat) : Int) = it + 1 + (n : Int) := by omega
    have ih := visit_forward_spec mem n fuel (it + 1) (by omega)
    rw [visit_forward, if_neg hne, e, ih, Option.map_some', List.range_succ_eq_map,
      List.map_cons, List.map_map]
    congr 2
    · simp
    · apply List.map_congr_left
      intro i _
      simp only [Function.comp]
      congr 1
      omega

theorem visit_reverse_spec {α : Type} (mem : List α) (last : Int) :
    ∀ (n fuel : Nat), n ≤ fuel →
      visit_reverse mem ⟨last⟩ fuel ⟨last + (n : Int)⟩
        = some ((List.range n).map fun (i : Nat) =>
            deref mem (last + (n : Int) - 1 - (i : Int)))
  | 0, fuel, _ => by
    cases fuel <;> simp [visit_reverse]
  | n + 1, 0, h => by omega
  | n + 1, fuel + 1, h => by
    have hne : ¬ (⟨last + ((n + 1 : Nat) : Int)⟩ : reverse_iterator) = ⟨last⟩ := by
      intro hc
      have := congrArg reverse_iterator.current hc
      simp only at this
      omega
    have e : last + ((n + 1 : Nat) : Int) - 1 = last + (n : Int) := by omega
    have ih := visit_reverse_spec mem last n fuel (by omega)
    rw [visit_reverse, if_neg hne]
    simp only [e]
    rw [ih, Option.map_some', List.range_succ_eq_map, List.map_cons, List.map_map]
    congr 2
    · congr 1
      omega
    · apply List.map_congr_left
      intro i _
      simp only [Function.comp]
      congr 1
      omega

theorem reverse_range_map {β : Type} (f : Nat → β) (n : Nat) :
    ((List.range n).map f).reverse = (List.range n).map fun i => f (n - 1 - i) := by
  rw [← List.map_reverse, List.range_eq_range', List.reverse_range', List.map_map,
    ← List.range_eq_range']
  apply List.map_congr_left
  intro i _
  simp only [Function.comp]
  congr 1
  omega

/-- C21: for a span `s` (of non-negative size), `end() - begin() == size()`; the loop
from `begin()` to `end()` terminates and visits exactly `s[0], ..., s[size - 1]` in
order; the loop from `rbegin()` to `rend()` visits that sequence reversed; and
iterating again (the view is not altered by a loop) yields the same sequence. -/
theorem iteration_visits_elements {α : Type} (mem : List α) (s : span) (fuel fuel' : Nat)
    (hs : 0 ≤ s.size) (hf : s.size.toNat ≤ fuel) (hf' : s.size.toNat ≤ fuel') :
    s.end_ - s.begin = s.size ∧
    (s.elements mem).length = s.size.toNat ∧
    visit_forward mem s.end_ fuel s.begin = some (s.elements mem) ∧
    visit_reverse mem s.rend fuel s.rbegin = some (s.elements mem).reverse ∧
    visit_forward mem s.end_ fuel' s.begin = visit_forward mem s.end_ fuel s.begin ∧
    visit_reverse mem s.rend fuel' s.rbegin = visit_reverse mem s.rend fuel s.rbegin := by
  have hsz : ((s.size.toNat : Nat) : Int) = s.m_size := by
    unfold span.size at hs ⊢
    omega
  have hfw : ∀ f : Nat, s.size.toNat ≤ f →
      visit_forward mem s.end_ f s.begin = some (s.elements mem) := by
    intro f hle
    have h := visit_forward_spec mem s.size.toNat f s.m_ptr hle
    rw [hsz] at h
    exact h
  have hrv : ∀ f : Nat, s.size.toNat ≤ f →
      visit_reverse mem s.rend f s.rbegin = some (s.elements mem).reverse := by
    intro f hle
    have h := visit_reverse_spec mem s.m_ptr s.size.toNat f hle
    rw [hsz] at h
    show visit_reverse mem ⟨s.m_ptr⟩ f ⟨s.m_ptr + s.m_size⟩ = _
    rw [h]
    unfold span.elements
    rw [reverse_range_map]
    congr 1
    apply List.map_congr_left
    intro i hi
    have hi' : i < s.size.toNat := List.mem_range.mp hi
    unfold span.index
    rw [← hsz]
    congr 1
    omega
  refine ⟨?_, ?_, hfw fuel hf, hrv fuel hf, ?_, ?_⟩
  · unfold span.end_ span.begin span.size
    omega
  · unfold span.elements
    rw [List.length_map, List.length_range]
  · rw [hfw fuel hf, hfw fuel' hf']
  · rw [hrv fuel hf, hrv fuel' hf']

theorem iteration_visits_elements_witness :
    ((0 : Int) ≤ span.size ⟨1, 3⟩ ∧ (span.size ⟨1, 3⟩).toNat ≤ 3 ∧ (span.size ⟨1, 3⟩).toNat ≤ 7) ∧
    (span.end_ ⟨1, 3⟩ - span.begin ⟨1, 3⟩ = span.size ⟨1, 3⟩ ∧
    (span.elements [10, 20, 30, 40, 50] ⟨1, 3⟩).length = (span.size ⟨1, 3⟩).toNat ∧
    visit_forward [10, 20, 30, 40, 50] (span.end_ ⟨1, 3⟩) 3 (span.begin ⟨1, 3⟩)
      = some (span.elements [10, 20, 30, 40, 50] ⟨1, 3⟩) ∧
    visit_reverse [10, 20, 30, 40, 50] (span.rend ⟨1, 3⟩) 3 (span.rbegin ⟨1, 3⟩)
      = some (span.elements [10, 20, 30, 40, 50] ⟨1, 3⟩).reverse ∧
    visit_forward [10, 20, 30, 40, 50] (span.end_ ⟨1, 3⟩) 7 (span.begin ⟨1, 3⟩)
      = visit_forward [10, 20, 30, 40, 50] (span.end_ ⟨1, 3⟩) 3 (span.begin ⟨1, 3⟩) ∧
    visit_reverse [10, 20, 30, 40, 50] (span.rend ⟨1, 3⟩) 7 (span.rbegin ⟨1, 3⟩)
      = visit_reverse [10, 20, 30, 40, 50] (span.rend ⟨1, 3⟩) 3 (span.rbegin ⟨1, 3⟩)) :=
  ⟨by decide, iteration_visits_elements [10, 20, 30, 40, 50] ⟨1, 3⟩ 3 7 (by decide) (by decide)
    (by decide)⟩

theorem iteration_scenario :
    visit_forward [10, 20, 30, 40, 50] (span.end_ ⟨1, 3⟩) 3 (span.begin ⟨1, 3⟩)
      = some [some 20, some 30, some 40] ∧
    visit_reverse [10, 20, 30, 40, 50] (span.rend ⟨1, 3⟩) 3 (span.rbegin ⟨1, 3⟩)
      = some [some 40, some 30, some 20] ∧
    visit_forward [10, 20, 30, 40, 50] (basic_string_view.end_ ⟨⟨1, 3⟩⟩) 3
      (basic_string_view.begin ⟨⟨1, 3⟩⟩) = some [some 20, some 30, some 40] :=
  ⟨by decide, by decide, by decide⟩

/-! ## Antisymmetry of `compare` -/

theorem compare_loop_antisymmetric {α : Type} [LinearOrder α] (mem : List α) :
    ∀ (n : Nat) (p q : Int),
      (char_traits.compare_loop mem p q n < 0 ↔ 0 < char_traits.compare_loop mem q p n) ∧
      (char_traits.compare_loop mem p q n = 0 ↔ char_traits.compare_loop mem q p n = 0)
  | 0, p, q => by simp [char_traits.compare_loop]
  | n + 1, p, q => by
    have ih := compare_loop_antisymmetric mem n (p + 1) (q + 1)
    cases hp : deref mem p with
    | none =>
      cases hq : deref mem q <;> simp [char_traits.compare_loop, hp, hq]
    | some x =>
      cases hq : deref mem q with
      | none => simp [char_traits.compare_loop, hp, hq]
      | some y =>
        simp only [char_traits.compare_loop, hp, hq]
        by_cases hxy : x < y
        · have hyx : ¬ y < x := not_lt.mpr (le_of_lt hxy)
          rw [if_pos hxy, if_neg hyx, if_pos hxy]
          constructor <;> constructor <;> intro h <;> omega
        · by_cases hyx : y < x
          · rw [if_neg hxy, if_pos hyx, if_pos hyx]
            constructor <;> constructor <;> intro h <;> omega
          · rw [if_neg hxy, if_neg hyx, if_neg hyx, if_neg hxy]
            exact ih

theorem char_traits_compare_antisymmetric {α : Type} [LinearOrder α] [Zero α] :
    (char_traits α).compare_antisymmetric := by
  intro mem p q n r r' h1 h2
  have h1' : char_traits.compare mem p q n = some r := h1
  have h2' : char_traits.compare mem q p n = some r' := h2
  unfold char_traits.compare at h1' h2'
  split at h1'
  · split at h2'
    · have e1 := Option.some.inj h1'
      have e2 := Option.some.inj h2'
      rw [← e1, ← e2]
      exact compare_loop_antisymmetric mem n p q
    · exact absurd h2' (by simp)
  · exact absurd h1' (by simp)

/-- C24: `compare` is antisymmetric in sign when `Traits::compare` is: if
`a.compare(b)` returns `r1` and `b.compare(a)` returns `r2`, then `r1 < 0` exactly
when `r2 > 0`, `r1 == 0` exactly when `r2 == 0`, and `r1 > 0` exactly when `r2 < 0`. -/
theorem compare_sign_antisymmetric {α : Type} (T : Traits α) (hT : T.compare_antisymmetric)
    (mem : List α) (a b : basic_string_view) (r1 r2 : Int)
    (h1 : a.compare T mem b = some r1) (h2 : b.compare T mem a = some r2) :
    (r1 < 0 ↔ 0 < r2) ∧ (r1 = 0 ↔ r2 = 0) ∧ (0 < r1 ↔ r2 < 0) := by
  unfold basic_string_view.compare at h1 h2
  rw [Nat.min_comm b.size a.size] at h2
  cases hc1 : T.compare mem a.data b.data (min a.size b.size) with
  | none =>
    simp [hc1] at h1
  | some c1 =>
    cases hc2 : T.compare mem b.data a.data (min a.size b.size) with
    | none =>
      simp [hc2] at h2
    | some c2 =>
      obtain ⟨hn, hz⟩ := hT mem a.data b.data (min a.size b.size) c1 c2 hc1 hc2
      simp only [hc1] at h1
      simp only [hc2] at h2
      by_cases h0 : c1 = 0
      · have h0' : c2 = 0 := hz.mp h0
        rw [if_pos h0] at h1
        rw [if_pos h0'] at h2
        by_cases hs : a.size = b.size
        · rw [if_pos hs] at h1
          rw [if_pos hs.symm] at h2
          have e1 := Option.some.inj h1
          have e2 := Option.some.inj h2
          omega
        · rw [if_neg hs] at h1
          rw [if_neg (fun h => hs h.symm)] at h2
          by_cases hg : a.size > b.size
          · rw [if_pos hg] at h1
            rw [if_neg (by omega)] at h2
            have e1 := Option.some.inj h1
            have e2 := Option.some.inj h2
            omega
          · rw [if_neg hg] at h1
            rw [if_pos (by omega)] at h2
            have e1 := Option.some.inj h1
            have e2 := Option.some.inj h2
            omega
      · have h0' : ¬ c2 = 0 := fun h => h0 (hz.mpr h)
        rw [if_neg h0] at h1
        rw [if_neg h0'] at h2
        have e1 := Option.some.inj h1
        have e2 := Option.some.inj h2
        omega

theorem compare_sign_antisymmetric_witness :
    (basic_string_view.compare (char_traits Nat) scenario_memory ⟨⟨0, 5⟩⟩ ⟨⟨6, 3⟩⟩ = some (-1) ∧
      basic_string_view.compare (char_traits Nat) scenario_memory ⟨⟨6, 3⟩⟩ ⟨⟨0, 5⟩⟩ = some 1) ∧
    (((-1 : Int) < 0 ↔ (0 : Int) < 1) ∧ ((-1 : Int) = 0 ↔ (1 : Int) = 0) ∧
      ((0 : Int) < -1 ↔ (1 : Int) < 0)) :=
  ⟨by decide, compare_sign_antisymmetric (char_traits Nat) char_traits_compare_antisymmetric
    scenario_memory ⟨⟨0, 5⟩⟩ ⟨⟨6, 3⟩⟩ (-1) 1 (by decide) (by decide)⟩

/-! ## `max_digits` -/

theorem max_digits_loop_spec (b : Nat) (hb : 2 ≤ b) :
    ∀ (n fuel i : Nat) (d : Int), i < b ^ n → n ≤ fuel →
      ∃ k : Nat, k ≤ n ∧ max_digits_loop (b : Int) fuel (i : Int) d = some (d + (k : Int)) ∧
        i < b ^ k ∧ (k ≠ 0 → b ^ (k - 1) ≤ i)
  | 0, fuel, i, d, hi, _ => by
    have hi0 : i = 0 := by
      rw [Nat.pow_zero] at hi
      omega
    subst hi0
    refine ⟨0, le_refl _, ?_, by simp, fun h => absurd rfl h⟩
    cases fuel <;> simp [max_digits_loop]
  | n + 1, fuel, i, d, hi, hf => by
    by_cases hi0 : i = 0
    · subst hi0
      refine ⟨0, by omega, ?_, by simp, fun h => absurd rfl h⟩
      cases fuel <;> simp [max_digits_loop]
    · obtain ⟨f, rfl⟩ : ∃ f, fuel = f + 1 := ⟨fuel - 1, by omega⟩
      have hbpos : 0 < b := by omega
      have hdiv : i / b < b ^ n := by
        rw [Nat.div_lt_iff_lt_mul hbpos, ← Nat.pow_succ]
        exact hi
      obtain ⟨k, hk, hloop, hlt, hlo⟩ := max_digits_loop_spec b hb n f (i / b) (d + 1) hdiv (by omega)
      have hi' : ¬ ((i : Int) = 0) := by omega
      have hb' : ¬ ((b : Int) = 0) := by omega
      have htdiv : Int.tdiv (i : Int) (b : Int) = ((i / b : Nat) : Int) := rfl
      refine ⟨k + 1, by omega, ?_, ?_, fun _ => ?_⟩
      · rw [max_digits_loop, if_neg hi', if_neg hb', htdiv, hloop]
        congr 1
        push_cast
        ring
      · rw [Nat.pow_succ]
        exact (Nat.div_lt_iff_lt_mul hbpos).mp hlt
      · show b ^ (k + 1 - 1) ≤ i
        rw [Nat.add_sub_cancel]
        by_cases hk0 : k = 0
        · subst hk0
          rw [Nat.pow_zero]
          omega
        · have h1 := hlo hk0
          have h2 : b ^ (k - 1) * b ≤ i := (Nat.le_div_iff_mul_le hbpos).mp h1
          have e : k = (k - 1) + 1 := by omega
          rw [e, Nat.pow_succ]
          exact h2

theorem cast_of_representable (t : Integral) (v : Nat) (ht : 1 ≤ t.sizeof) (hv : v ≤ t.max) :
    t.cast (v : Int) = (v : Int) := by
  obtain ⟨sz, sg⟩ := t
  simp only at ht
  cases sg
  · have hpos : 0 < 2 ^ (8 * sz) := by positivity
    have hv' : v < 2 ^ (8 * sz) := by
      simp only [Integral.max, Integral.digits, Bool.false_eq_true, if_false, Nat.sub_zero] at hv
      omega
    have hv'' : (v : Int) < 2 ^ (8 * sz) := by exact_mod_cast hv'
    show (v : Int) % 2 ^ (8 * sz) = (v : Int)
    exact Int.emod_eq_of_lt (by omega) hv''
  · have hpos : 0 < 2 ^ (8 * sz - 1) := by positivity
    have hv' : v < 2 ^ (8 * sz - 1) := by
      simp only [Integral.max, Integral.digits, if_true] at hv
      omega
    have hv'' : (v : Int) < 2 ^ (8 * sz - 1) := by exact_mod_cast hv'
    have hsplit : (2 : Int) ^ (8 * sz) = 2 * 2 ^ (8 * sz - 1) := by
      have e : 8 * sz = (8 * sz - 1) + 1 := by omega
      rw [e, pow_succ, Nat.add_sub_cancel]
      ring
    show ((v : Int) + 2 ^ (8 * sz - 1)) % 2 ^ (8 * sz) - 2 ^ (8 * sz - 1) = (v : Int)
    rw [Int.emod_eq_of_lt (by omega) (by rw [hsplit]; omega)]
    omega

theorem digits_pos (t : Integral)
    (ht : t.sizeof = 1 ∨ t.sizeof = 2 ∨ t.sizeof = 4 ∨ t.sizeof = 8) : 1 ≤ t.digits := by
  obtain ⟨sz, sg⟩ := t
  simp only at ht
  rcases ht with h | h | h | h <;> subst h <;> cases sg <;> decide

theorem max_digits_generic_base (t : Integral) (base fuel : Nat)
    (ht : t.sizeof = 1 ∨ t.sizeof = 2 ∨ t.sizeof = 4 ∨ t.sizeof = 8)
    (hb2 : 2 ≤ base) (hbm : base ≤ t.max) (h10 : base ≠ 10) (h8 : base ≠ 8)
    (hf : t.digits ≤ fuel) :
    ∃ d : Nat, max_digits t (base : Int) fuel = some (d : Int) ∧ 1 ≤ d ∧
      base ^ (d - 1) ≤ t.max ∧ t.max < base ^ d := by
  have hdig := digits_pos t ht
  have hpow : 1 ≤ 2 ^ (t.digits - 1) := Nat.one_le_two_pow
  have hsplit : 2 ^ t.digits = 2 * 2 ^ (t.digits - 1) := by
    have e : t.digits = (t.digits - 1) + 1 := by omega
    rw [e, Nat.pow_succ, Nat.add_sub_cancel]
    ring
  have h10' : ¬ ((base : Int) = 10) := by omega
  have h8' : ¬ ((base : Int) = 8) := by omega
  unfold max_digits
  rw [if_neg h10', if_neg h8']
  by_cases h2 : base = 2
  · subst h2
    rw [if_pos (by rfl)]
    refine ⟨t.digits, rfl, hdig, ?_, ?_⟩
    · unfold Integral.max
      omega
    · unfold Integral.max
      omega
  · have h2' : ¬ ((base : Int) = Integral.radix) := by
      unfold Integral.radix
      omega
    rw [if_neg h2', cast_of_representable t base (by omega) hbm]
    have hmax : t.max < base ^ t.digits := by
      have h1 : 2 ^ t.digits ≤ base ^ t.digits := Nat.pow_le_pow_left hb2 _
      unfold Integral.max
      omega
    obtain ⟨k, _, hloop, hlt, hlo⟩ := max_digits_loop_spec base hb2 t.digits fuel t.max 0 hmax hf
    have hk : k ≠ 0 := by
      intro hk0
      subst hk0
      rw [Nat.pow_zero] at hlt
      omega
    refine ⟨k, ?_, by omega, hlo hk, hlt⟩
    rw [hloop]
    simp

/-- C23, at failing inputs: for the 4-byte signed type, whose largest value
2147483647 has 10 decimal and 11 octal digits, `max_digits(10)` returns `digits10`,
which is 9, and `max_digits(8)` returns the table entry 21; for the 2-byte unsigned
type, whose largest value 65535 has 6 octal digits, `max_digits(8)` returns 5. -/
theorem max_digits_special_cases_miscount :
    Integral.max ⟨4, true⟩ = 2147483647 ∧
    max_digits ⟨4, true⟩ 10 0 = some 9 ∧
    10 ^ 9 ≤ Integral.max ⟨4, true⟩ ∧ Integral.max ⟨4, true⟩ < 10 ^ 10 ∧
    max_digits ⟨4, true⟩ 8 0 = some 21 ∧
    8 ^ 10 ≤ Integral.max ⟨4, true⟩ ∧ Integral.max ⟨4, true⟩ < 8 ^ 11 ∧
    Integral.max ⟨2, false⟩ = 65535 ∧
    max_digits ⟨2, false⟩ 8 0 = some 5 ∧
    8 ^ 5 ≤ Integral.max ⟨2, false⟩ ∧ Integral.max ⟨2, false⟩ < 8 ^ 6 :=
  ⟨by decide, by decide, by decide, by decide, by decide, by decide, by decide, by decide,
    by decide, by decide, by decide⟩

/-- C25, at the failing input: for an 8-byte integral type the index
`sizeof(Integral) - 1` is 7, outside the 4-entry table `base8_digits`, so the read
in `max_digits(8)` is out of bounds; for the sizes 1, 2 and 4 the indices 0, 1 and 3
are within the table. -/
theorem base8_lookup_out_of_bounds :
    base8_digits.length = 4 ∧
    (⟨8, true⟩ : Integral).sizeof - 1 = 7 ∧
    ¬ ((⟨8, true⟩ : Integral).sizeof - 1 < base8_digits.length) ∧
    max_digits ⟨8, true⟩ 8 0 = none ∧ max_digits ⟨8, false⟩ 8 0 = none ∧
    max_digits ⟨1, true⟩ 8 0 = some 3 ∧ max_digits ⟨2, true⟩ 8 0 = some 5 ∧
    max_digits ⟨4, true⟩ 8 0 = some 21 :=
  ⟨by decide, by decide, by decide, by decide, by decide, by decide, by decide, by decide⟩

end ekutil
